import Mathlib

/-
Shallow embedding of CLexicon.c (a 26-ary trie set of strings).

Modelling conventions:
  * A C string is a `List Nat` of ASCII character codes.
  * `LexNode*` values are `Option LexNode`; a NULL pointer is `none`.
  * The child array `LexNode* children[26]` is a `List (Option LexNode)`
    (length 26 for every node the code ever allocates).
  * The child index `ith - 'a'` is computed in `Int` exactly as C does;
    an index outside 0..25 would read or write outside the child array,
    which is undefined behaviour, so every operation that would do so
    returns `none` (a fault).  Likewise dereferencing a NULL node and the
    out-of-bounds read `word_lower[-1]` in `clex_remove` on the empty
    string are modelled as `none`.
  * `int wordcount` is modelled as `Int` (no operation here can overflow
    a 32-bit counter within the scope of the stated claims).
-/

/-- C `tolower` on an ASCII code: maps 65..90 ('A'..'Z') to 97..122, and
leaves every other code unchanged. -/
def toLowerC (c : Nat) : Nat := if 65 ≤ c ∧ c ≤ 90 then c + 32 else c

/-- The child-array index `ith - 'a'` computed by the C code, as an
integer (C computes it in `int`, so it can be negative). -/
def charIdx (c : Nat) : Int := (c : Int) - 97

/-- A trie node: `struct LexNode { bool is_word; LexNode* children[26]; }`. -/
inductive LexNode : Type where
  | mk : Bool → List (Option LexNode) → LexNode

/-- The `is_word` field of a node. -/
def LexNode.is_word : LexNode → Bool
  | .mk w _ => w

/-- The `children` array of a node. -/
def LexNode.children : LexNode → List (Option LexNode)
  | .mk _ cs => cs

/-- Read child slot `i` (the C expression `node->children[i]`, for an
in-bounds `i`). -/
def LexNode.getChild (n : LexNode) (i : Nat) : Option LexNode :=
  n.children.getD i none

/-- Write child slot `i` (the C assignment `node->children[i] = v`). -/
def LexNode.setChild (n : LexNode) (i : Nat) (v : Option LexNode) : LexNode :=
  .mk n.is_word (n.children.set i v)

/-- Overwrite the `is_word` flag of a node. -/
def LexNode.setWord (n : LexNode) (w : Bool) : LexNode :=
  .mk w n.children

/-- The scan `for(i...) if(node->children[i] != NULL)` used by
`clex_remove` to decide whether the cleared node still has children. -/
def LexNode.hasChild (n : LexNode) : Bool :=
  n.children.any (fun c => c.isSome)

/-- `create_node`: a fresh node, `is_word = false`, all 26 children NULL. -/
def create_node : LexNode := .mk false (List.replicate 26 none)

mutual
/-- Number of nodes with `is_word = true` in the subtree rooted at a node
(the node itself included).  This is exactly the number of times
`delete_node_helper` decrements `lex->wordcount` when freeing the subtree. -/
def countWords : LexNode → Nat
  | .mk w cs => countWordsList cs + (if w then 1 else 0)
/-- Word-node count summed over a list of child slots. -/
def countWordsList : List (Option LexNode) → Nat
  | [] => 0
  | none :: rest => countWordsList rest
  | some n :: rest => countWords n + countWordsList rest
end

/-- Word-node count of an optional subtree. -/
def countWordsSlot : Option LexNode → Nat
  | none => 0
  | some n => countWords n

/-- `delete_node_helper` from the source: frees the whole subtree hanging
at a slot and sets the slot to NULL, decrementing `lex->wordcount` once
for every freed node whose `is_word` flag is set.  We model its effect:
the new slot value together with the number of decrements. -/
def delete_node_helper (slot : Option LexNode) : Option LexNode × Nat :=
  (none, countWordsSlot slot)

/-- `delete_node` from the source: frees all children subtrees of a node
(via `delete_node_helper`, so decrementing per freed word node) and then
frees the node itself without touching the counter.  We model the number
of decrements it performs. -/
def delete_node_decrements (n : LexNode) : Nat := countWordsList n.children

mutual
/-- `branch_contains_words`: true if the node or any node below it has
`is_word = true`.  The C code accumulates over the children first and
then ors in the node's own flag. -/
def branch_contains_words : LexNode → Bool
  | .mk w cs => bcwList cs || w
/-- The accumulation loop of `branch_contains_words` over the child slots
(a NULL slot contributes false). -/
def bcwList : List (Option LexNode) → Bool
  | [] => false
  | none :: rest => bcwList rest
  | some n :: rest => branch_contains_words n || bcwList rest
end

mutual
/-- `scrub_empty_branches` on a non-NULL node: a node that is a word or
has words somewhere below keeps its flag and has each child slot scrubbed
recursively; otherwise the node is deleted with `delete_node` and the
result is a NULL slot.  The second component is the total number of
`wordcount` decrements performed by the embedded `delete_node` calls. -/
def scrubNode : LexNode → Option LexNode × Nat
  | .mk w cs =>
      if w || branch_contains_words (.mk w cs) then
        let p := scrubList cs
        (some (.mk w p.1), p.2)
      else
        (none, delete_node_decrements (.mk w cs))
/-- `scrub_empty_branches` applied to each slot of a child list in order
(a NULL slot is left alone). -/
def scrubList : List (Option LexNode) → List (Option LexNode) × Nat
  | [] => ([], 0)
  | none :: rest =>
      let p2 := scrubList rest
      (none :: p2.1, p2.2)
  | some n :: rest =>
      let p1 := scrubNode n
      let p2 := scrubList rest
      (p1.1 :: p2.1, p1.2 + p2.2)
end

/-- `scrub_empty_branches` called on a slot: a NULL slot is left alone. -/
def scrubSlot : Option LexNode → Option LexNode × Nat
  | none => (none, 0)
  | some n => scrubNode n

/-- `struct CLexiconImplementation { LexNode* root; int wordcount; }`. -/
structure CLexicon : Type where
  root : Option LexNode
  wordcount : Int

/-- `clex_create`: a fresh lexicon with a newly allocated empty root and
`wordcount = 0`. -/
def clex_create : CLexicon := { root := some create_node, wordcount := 0 }

/-- The walk/extend loop of `clex_simple_add` relative to a (non-NULL)
node: for each character, compute `ith - 'a'`, create the child if the
slot is NULL, and descend; at the end set `is_word = true` on the final
node.  An out-of-range index writes outside the child array: fault
(`none`). -/
def add_at : LexNode → List Nat → Option LexNode
  | n, [] => some (n.setWord true)
  | n, c :: cs =>
      let i := charIdx c
      if 0 ≤ i ∧ i < 26 then
        let nx := match n.getChild i.toNat with
          | none => create_node
          | some m => m
        match add_at nx cs with
        | none => none
        | some nx' => some (n.setChild i.toNat (some nx'))
      else none

/-- `clex_simple_add`: adds an already-lower-cased word, incrementing
`wordcount` unconditionally.  The C code starts from `lex->root` with no
NULL check, so a NULL root is a fault. -/
def clex_simple_add (lex : CLexicon) (word_lower : List Nat) : Option CLexicon :=
  match lex.root with
  | none => none
  | some r =>
      match add_at r word_lower with
      | none => none
      | some r' => some { root := some r', wordcount := lex.wordcount + 1 }

/-- `clex_add`: lower-cases the word and calls `clex_simple_add`. -/
def clex_add (lex : CLexicon) (word : List Nat) : Option CLexicon :=
  clex_simple_add lex (word.map toLowerC)

/-- The traversal loop of `clex_contains_helper`: at each character the
current pointer is first checked for NULL (returning "not found", i.e.
`some none`), then the child at `ith - 'a'` is read (fault on an
out-of-range index).  Returns the final pointer value. -/
def contains_walk : Option LexNode → List Nat → Option (Option LexNode)
  | curr, [] => some curr
  | none, _ :: _ => some none
  | some n, c :: cs =>
      let i := charIdx c
      if 0 ≤ i ∧ i < 26 then contains_walk (n.getChild i.toNat) cs else none

/-- `clex_contains_helper`: lower-cases the word, walks from the root,
returns false if the walk ends on NULL, and otherwise
`isPrefix || node->is_word`. -/
def clex_contains_helper (lex : CLexicon) (word : List Nat) (asPfx : Bool) : Option Bool :=
  let word_lower := word.map toLowerC
  match contains_walk lex.root word_lower with
  | none => none
  | some none => some false
  | some (some n) => some (asPfx || n.is_word)

/-- `clex_contains`: the helper with `isPrefix = false`. -/
def clex_contains (lex : CLexicon) (word : List Nat) : Option Bool :=
  clex_contains_helper lex word false

/-- `clex_contains_prefix`: the helper with `isPrefix = true`. -/
def clex_contains_prefix_fn (lex : CLexicon) (pre : List Nat) : Option Bool :=
  clex_contains_helper lex pre true

/-- Result of the body of `clex_remove` relative to a slot:
either the early `return false` (word node absent), or the mutated slot
together with the flag telling whether the childless word node was freed
(in which case `clex_remove` goes on to call `scrub_empty_branches`). -/
inductive RemoveRes : Type where
  | notFound : RemoveRes
  | removed : Option LexNode → Bool → RemoveRes

/-- The descent of `clex_remove` relative to a slot.  On `[c]` the slot
holds the node reached after all but the last character: the C code
dereferences it with NO NullPointer check (`(*curr_node)->children[...]`),
so an absent node here is a fault; its child at the last character is the
word node: if absent return false, else clear `is_word`, and if the node
has no children free it and clear the slot.  On a longer word the loop
first checks the current node for NULL (`return false`), then descends
through the child at `ith - 'a'`. -/
def remove_core : Option LexNode → List Nat → Option RemoveRes
  | slot, [lastc] =>
      match slot with
      | none => none
      | some n =>
          let i := charIdx lastc
          if 0 ≤ i ∧ i < 26 then
            match n.getChild i.toNat with
            | none => some .notFound
            | some wn =>
                let wn' := wn.setWord false
                if wn'.hasChild then
                  some (.removed (some (n.setChild i.toNat (some wn'))) false)
                else
                  some (.removed (some (n.setChild i.toNat none)) true)
          else none
  | slot, c :: cs =>
      match slot with
      | none => some .notFound
      | some n =>
          let i := charIdx c
          if 0 ≤ i ∧ i < 26 then
            match remove_core (n.getChild i.toNat) cs with
            | none => none
            | some .notFound => some .notFound
            | some (.removed s' pruned) =>
                some (.removed (some (n.setChild i.toNat s')) pruned)
          else none
  | _, [] => none

/-- `clex_remove`: lower-cases the word; on the empty word the C code
reads `word_lower[wordlen - 1] = word_lower[-1]`, an out-of-bounds read:
fault.  Otherwise it runs the descent from the root slot; when the word
node existed, `wordcount` is decremented (unconditionally, whatever the
old `is_word` value), and if the childless word node was freed,
`scrub_empty_branches` is run on the whole tree from the root. -/
def clex_remove (lex : CLexicon) (word : List Nat) : Option (Bool × CLexicon) :=
  let word_lower := word.map toLowerC
  match word_lower with
  | [] => none
  | c :: cs =>
      match remove_core lex.root (c :: cs) with
      | none => none
      | some .notFound => some (false, lex)
      | some (.removed root' pruned) =>
          if pruned then
            let sc := scrubSlot root'
            some (true, { root := sc.1, wordcount := lex.wordcount - 1 - (sc.2 : Int) })
          else
            some (true, { root := root', wordcount := lex.wordcount - 1 })

/-- The walk of `clex_remove_prefix` relative to a slot: the loop checks
the current node for NULL before each step (`return false`), a final NULL
check yields false, and otherwise the node's whole subtree is freed with
`delete_node_helper` (the third component is the number of `wordcount`
decrements that performs) and the slot is set to NULL. -/
def remove_prefix_at : Option LexNode → List Nat → Option (Bool × Option LexNode × Nat)
  | none, _ => some (false, none, 0)
  | some n, [] => some (true, (delete_node_helper (some n)).1, (delete_node_helper (some n)).2)
  | some n, c :: cs =>
      let i := charIdx c
      if 0 ≤ i ∧ i < 26 then
        match remove_prefix_at (n.getChild i.toNat) cs with
        | none => none
        | some (false, _, _) => some (false, some n, 0)
        | some (true, s', d) => some (true, some (n.setChild i.toNat s'), d)
      else none

/-- `clex_remove_prefix`: lower-cases the prefix, walks from the root
slot, and on success deletes the reached node and its whole subtree,
decrementing `wordcount` once per freed word node. -/
def clex_remove_prefix_fn (lex : CLexicon) (pre : List Nat) : Option (Bool × CLexicon) :=
  let pref_lower := pre.map toLowerC
  match remove_prefix_at lex.root pref_lower with
  | none => none
  | some (b, root', d) => some (b, { root := root', wordcount := lex.wordcount - (d : Int) })

/-- `clex_wordcount`: returns the cached counter. -/
def clex_wordcount (lex : CLexicon) : Int := lex.wordcount

/-- `clex_isEmpty`: `wordcount == 0`. -/
def clex_isEmpty (lex : CLexicon) : Bool := lex.wordcount == 0

/-- `clex_clear`: frees the tree, installs a fresh root, resets the
counter (the decrements done while freeing are overwritten by the reset). -/
def clex_clear (_lex : CLexicon) : CLexicon :=
  { root := some create_node, wordcount := 0 }

/-- A public mutating operation of the lexicon, as used by the claims
about operation sequences. -/
inductive Op : Type where
  | add : List Nat → Op
  | remove : List Nat → Op
  | rmPre : List Nat → Op

/-- Run one operation, keeping only the resulting state (a fault is
propagated as `none`). -/
def applyOp (lex : CLexicon) : Op → Option CLexicon
  | .add w => clex_add lex w
  | .remove w => (clex_remove lex w).map (fun p => p.2)
  | .rmPre p => (clex_remove_prefix_fn lex p).map (fun p => p.2)

/-- Run a sequence of operations from a state; `none` if any faults. -/
def runOps : CLexicon → List Op → Option CLexicon
  | lex, [] => some lex
  | lex, o :: os =>
      match applyOp lex o with
      | none => none
      | some l' => runOps l' os

/-- True for the operations that are not a whole-prefix removal. -/
def Op.basic : Op → Bool
  | .rmPre _ => false
  | _ => true

/-- The word argument of an operation. -/
def Op.arg : Op → List Nat
  | .add w => w
  | .remove w => w
  | .rmPre p => p

/-- ASCII code of a lower-case letter a..z. -/
def isLowerAlpha (c : Nat) : Bool := decide (97 ≤ c ∧ c ≤ 122)

/-- ASCII code of a letter A..Z or a..z. -/
def isAlpha (c : Nat) : Bool := decide ((65 ≤ c ∧ c ≤ 90) ∨ (97 ≤ c ∧ c ≤ 122))

/-- A string all of whose characters are lower-case letters. -/
def lowerWord (w : List Nat) : Bool := w.all isLowerAlpha

/-- A string all of whose characters are ASCII letters. -/
def alphaWord (w : List Nat) : Bool := w.all isAlpha

mutual
/-- Well-formedness: every node of the tree has a child array of length
exactly 26, as every node the C code allocates does. -/
def nodeWF : LexNode → Bool
  | .mk _ cs => decide (cs.length = 26) && listWF cs
/-- Well-formedness over a list of child slots. -/
def listWF : List (Option LexNode) → Bool
  | [] => true
  | none :: rest => listWF rest
  | some n :: rest => nodeWF n && listWF rest
end

/-- Well-formedness of a lexicon state (an absent root is allowed). -/
def lexWF (lex : CLexicon) : Bool :=
  match lex.root with
  | none => true
  | some r => nodeWF r

mutual
/-- Invariant I1 at a node: the node is a word or has a present child,
and the same recursively below. -/
def noDead : LexNode → Bool
  | .mk w cs => (w || cs.any (fun c => c.isSome)) && noDeadList cs
/-- Invariant I1 over a list of child slots. -/
def noDeadList : List (Option LexNode) → Bool
  | [] => true
  | none :: rest => noDeadList rest
  | some n :: rest => noDead n && noDeadList rest
end

/-- Invariant I1 exactly as claim C2 states it: no node reachable from
the root (the root itself included) has `is_word = false` and all 26
child slots absent. -/
def claimI1 (lex : CLexicon) : Bool :=
  match lex.root with
  | none => true
  | some r => noDead r

/-- Invariant I1 restricted to the non-root reachable nodes. -/
def rootChildrenI1 (lex : CLexicon) : Bool :=
  match lex.root with
  | none => true
  | some r => noDeadList r.children

/-- Total membership walk over an already-lower-cased word (used only to
state properties about words of lower-case letters, for which it agrees
with `clex_contains`). -/
def membW : Option LexNode → List Nat → Bool
  | none, _ => false
  | some n, [] => n.is_word
  | some n, c :: cs => membW (n.getChild (c - 97)) cs

mutual
/-- All words stored in the subtree at a node, as lists of lower-case
letter codes: the empty word if the node is a word, plus each child's
words with the child's letter prepended. -/
def wordsIn : LexNode → List (List Nat)
  | .mk w cs => (if w then [[]] else []) ++ wordsInList 97 cs
/-- Words of a list of child slots whose first slot has letter code `k`. -/
def wordsInList : Nat → List (Option LexNode) → List (List Nat)
  | _, [] => []
  | k, none :: rest => wordsInList (k + 1) rest
  | k, some n :: rest => (wordsIn n).map (fun t => k :: t) ++ wordsInList (k + 1) rest
end

/-- The members of a lexicon state, as lower-case letter strings. -/
def membersOf (lex : CLexicon) : List (List Nat) :=
  match lex.root with
  | none => []
  | some r => wordsIn r

/-- Walk an already-lower-cased path of letters down from a slot,
returning the slot reached, or `none` if a NULL node is hit before the
path is consumed. -/
def reachSlot : Option LexNode → List Nat → Option (Option LexNode)
  | slot, [] => some slot
  | none, _ :: _ => none
  | some n, c :: cs => reachSlot (n.getChild (c - 97)) cs

/-- The add-only-nonmembers / remove-only-members discipline over a
sequence of operations, checked step by step (a faulting operation also
fails the check). -/
def disciplinedB : CLexicon → List Op → Bool
  | _, [] => true
  | lex, o :: os =>
      match o with
      | .add w =>
          (clex_contains lex w == some false) &&
            (match clex_add lex w with
             | none => false
             | some l' => disciplinedB l' os)
      | .remove w =>
          (clex_contains lex w == some true) &&
            (match clex_remove lex w with
             | none => false
             | some p => disciplinedB p.2 os)
      | .rmPre p =>
          match clex_remove_prefix_fn lex p with
          | none => false
          | some q => disciplinedB q.2 os

/-- Total walk of an already-lower-cased word from a slot: the slot
reached after consuming the word, or `none` if the path breaks off. -/
def walkTot : Option LexNode → List Nat → Option LexNode
  | slot, [] => slot
  | none, _ :: _ => none
  | some n, c :: cs => walkTot (n.getChild (c - 97)) cs

/-- Well-formedness of one child slot. -/
def slotWF : Option LexNode → Bool
  | none => true
  | some n => nodeWF n

/-- Invariant I1 of one child slot. -/
def noDeadSlot : Option LexNode → Bool
  | none => true
  | some n => noDead n

/-- `branch_contains_words` read through a slot (NULL contributes false). -/
def bcwSlot : Option LexNode → Bool
  | none => false
  | some n => branch_contains_words n

/-- The words contributed by one child slot carrying letter code `k`. -/
def wordsInSlot (k : Nat) : Option LexNode → List (List Nat)
  | none => []
  | some n => (wordsIn n).map (fun t => k :: t)

/- Character-level lemmas. -/

theorem toLowerC_of_lower (c : Nat) (h : isLowerAlpha c = true) : toLowerC c = c := by
  simp only [isLowerAlpha, decide_eq_true_eq] at h
  simp only [toLowerC]
  split
  · omega
  · rfl

theorem isLowerAlpha_toLowerC (c : Nat) (h : isAlpha c = true) :
    isLowerAlpha (toLowerC c) = true := by
  simp only [isAlpha, decide_eq_true_eq] at h
  simp only [isLowerAlpha, toLowerC, decide_eq_true_eq]
  split <;> omega

theorem map_toLowerC_of_lower (w : List Nat) (h : lowerWord w = true) :
    w.map toLowerC = w := by
  induction w with
  | nil => rfl
  | cons c cs ih =>
      simp only [lowerWord, List.all_cons, Bool.and_eq_true] at h
      simp only [List.map_cons, toLowerC_of_lower c h.1, ih h.2]

theorem lowerWord_map_toLowerC (w : List Nat) (h : alphaWord w = true) :
    lowerWord (w.map toLowerC) = true := by
  induction w with
  | nil => rfl
  | cons c cs ih =>
      simp only [alphaWord, List.all_cons, Bool.and_eq_true] at h
      simp only [lowerWord, List.map_cons, List.all_cons, Bool.and_eq_true]
      exact ⟨isLowerAlpha_toLowerC c h.1, ih h.2⟩

theorem charIdx_lower_bounds (c : Nat) (h : isLowerAlpha c = true) :
    0 ≤ charIdx c ∧ charIdx c < 26 := by
  simp only [isLowerAlpha, decide_eq_true_eq] at h
  simp only [charIdx]
  omega

theorem charIdx_lower_toNat (c : Nat) (h : isLowerAlpha c = true) :
    (charIdx c).toNat = c - 97 := by
  simp only [isLowerAlpha, decide_eq_true_eq] at h
  simp only [charIdx]
  omega

theorem lower_sub97_inj (c d : Nat) (hc : isLowerAlpha c = true)
    (hd : isLowerAlpha d = true) (hne : c ≠ d) : c - 97 ≠ d - 97 := by
  simp only [isLowerAlpha, decide_eq_true_eq] at hc hd
  omega

theorem lower_sub97_lt (c : Nat) (h : isLowerAlpha c = true) : c - 97 < 26 := by
  simp only [isLowerAlpha, decide_eq_true_eq] at h
  omega

/- Node accessor lemmas. -/

@[simp] theorem LexNode.is_word_mk (w : Bool) (cs : List (Option LexNode)) :
    (LexNode.mk w cs).is_word = w := rfl

@[simp] theorem LexNode.children_mk (w : Bool) (cs : List (Option LexNode)) :
    (LexNode.mk w cs).children = cs := rfl

@[simp] theorem LexNode.is_word_setChild (n : LexNode) (i : Nat) (v : Option LexNode) :
    (n.setChild i v).is_word = n.is_word := rfl

@[simp] theorem LexNode.children_setChild (n : LexNode) (i : Nat) (v : Option LexNode) :
    (n.setChild i v).children = n.children.set i v := rfl

@[simp] theorem LexNode.is_word_setWord (n : LexNode) (w : Bool) :
    (n.setWord w).is_word = w := rfl

@[simp] theorem LexNode.children_setWord (n : LexNode) (w : Bool) :
    (n.setWord w).children = n.children := rfl

@[simp] theorem LexNode.getChild_setWord (n : LexNode) (w : Bool) (i : Nat) :
    (n.setWord w).getChild i = n.getChild i := rfl

theorem LexNode.getChild_setChild_self (n : LexNode) (i : Nat) (v : Option LexNode)
    (h : i < n.children.length) : (n.setChild i v).getChild i = v := by
  simp [LexNode.getChild, LexNode.setChild, List.getD_eq_getElem?_getD,
    List.getElem?_set_self, h]

theorem LexNode.getChild_setChild_ne (n : LexNode) (i j : Nat) (v : Option LexNode)
    (h : i ≠ j) : (n.setChild i v).getChild j = n.getChild j := by
  simp [LexNode.getChild, LexNode.setChild, List.getD_eq_getElem?_getD,
    List.getElem?_set_ne h]

@[simp] theorem create_node_is_word : create_node.is_word = false := rfl

@[simp] theorem create_node_getChild (i : Nat) : create_node.getChild i = none := by
  simp only [create_node, LexNode.getChild, LexNode.children_mk,
    List.getD_eq_getElem?_getD, List.getElem?_replicate]
  split <;> simp

/- Cons-shaped equations for the slot-list recursions. -/

theorem countWordsList_cons (c : Option LexNode) (rest : List (Option LexNode)) :
    countWordsList (c :: rest) = countWordsSlot c + countWordsList rest := by
  cases c <;> simp [countWordsList, countWordsSlot]

theorem countWords_eq (n : LexNode) :
    countWords n = countWordsList n.children + (if n.is_word then 1 else 0) := by
  cases n; rfl

theorem noDeadList_cons (c : Option LexNode) (rest : List (Option LexNode)) :
    noDeadList (c :: rest) = (noDeadSlot c && noDeadList rest) := by
  cases c <;> simp [noDeadList, noDeadSlot]

theorem noDead_eq (n : LexNode) :
    noDead n = ((n.is_word || n.children.any (fun c => c.isSome)) && noDeadList n.children) := by
  cases n; rfl

theorem bcwList_cons (c : Option LexNode) (rest : List (Option LexNode)) :
    bcwList (c :: rest) = (bcwSlot c || bcwList rest) := by
  cases c <;> simp [bcwList, bcwSlot]

theorem bcw_eq (n : LexNode) :
    branch_contains_words n = (bcwList n.children || n.is_word) := by
  cases n; rfl

theorem listWF_cons (c : Option LexNode) (rest : List (Option LexNode)) :
    listWF (c :: rest) = (slotWF c && listWF rest) := by
  cases c <;> simp [listWF, slotWF]

theorem nodeWF_eq (n : LexNode) :
    nodeWF n = (decide (n.children.length = 26) && listWF n.children) := by
  cases n; rfl

theorem scrubList_cons (c : Option LexNode) (rest : List (Option LexNode)) :
    scrubList (c :: rest) =
      ((scrubSlot c).1 :: (scrubList rest).1, (scrubSlot c).2 + (scrubList rest).2) := by
  cases c <;> simp [scrubList, scrubSlot]

theorem scrubNode_eq (n : LexNode) :
    scrubNode n =
      (if n.is_word || branch_contains_words n then
        (some (.mk n.is_word (scrubList n.children).1), (scrubList n.children).2)
      else (none, delete_node_decrements n)) := by
  cases n; rfl

theorem wordsInList_cons (k : Nat) (c : Option LexNode) (rest : List (Option LexNode)) :
    wordsInList k (c :: rest) = wordsInSlot k c ++ wordsInList (k + 1) rest := by
  cases c <;> simp [wordsInList, wordsInSlot]

theorem wordsIn_eq (n : LexNode) :
    wordsIn n = (if n.is_word then [[]] else []) ++ wordsInList 97 n.children := by
  cases n; rfl

/- Slot-list access lemmas. -/

theorem getD_some_mem (cs : List (Option LexNode)) (i : Nat) (m : LexNode)
    (h : cs.getD i none = some m) : some m ∈ cs := by
  rw [List.getD_eq_getElem?_getD] at h
  cases hg : cs[i]? with
  | none => rw [hg] at h; simp at h
  | some x =>
      rw [hg] at h
      simp only [Option.getD_some] at h
      subst h
      exact List.getElem?_mem hg

theorem getD_all_none (cs : List (Option LexNode))
    (h : cs.any (fun c => c.isSome) = false) (i : Nat) : cs.getD i none = none := by
  cases hg : cs.getD i none with
  | none => rfl
  | some m =>
      have hm := getD_some_mem cs i m hg
      simp only [List.any_eq_false] at h
      have := h _ hm
      simp at this

theorem hasChild_false_getChild (n : LexNode) (h : n.hasChild = false) (i : Nat) :
    n.getChild i = none :=
  getD_all_none n.children h i

theorem countWordsList_all_none (cs : List (Option LexNode))
    (h : cs.any (fun c => c.isSome) = false) : countWordsList cs = 0 := by
  induction cs with
  | nil => rfl
  | cons c rest ih =>
      simp only [List.any_cons, Bool.or_eq_false_iff] at h
      cases c with
      | none => simpa [countWordsList_cons, countWordsSlot] using ih h.2
      | some m => simp at h

/- Well-formedness lemmas. -/

theorem listWF_mem (cs : List (Option LexNode)) (h : listWF cs = true)
    (m : LexNode) (hm : some m ∈ cs) : nodeWF m = true := by
  induction cs with
  | nil => simp at hm
  | cons c rest ih =>
      rw [listWF_cons, Bool.and_eq_true] at h
      rcases List.mem_cons.mp hm with h1 | h1
      · rw [← h1] at h; exact h.1
      · exact ih h.2 h1

theorem listWF_getD (cs : List (Option LexNode)) (h : listWF cs = true)
    (i : Nat) (m : LexNode) (hg : cs.getD i none = some m) : nodeWF m = true :=
  listWF_mem cs h m (getD_some_mem cs i m hg)

theorem nodeWF_length (n : LexNode) (h : nodeWF n = true) : n.children.length = 26 := by
  rw [nodeWF_eq, Bool.and_eq_true, decide_eq_true_eq] at h
  exact h.1

theorem nodeWF_listWF (n : LexNode) (h : nodeWF n = true) : listWF n.children = true := by
  rw [nodeWF_eq, Bool.and_eq_true] at h
  exact h.2

theorem nodeWF_getChild (n : LexNode) (h : nodeWF n = true) (i : Nat) (m : LexNode)
    (hg : n.getChild i = some m) : nodeWF m = true :=
  listWF_getD n.children (nodeWF_listWF n h) i m hg

theorem listWF_set (cs : List (Option LexNode)) (h : listWF cs = true) (i : Nat)
    (v : Option LexNode) (hv : slotWF v = true) : listWF (cs.set i v) = true := by
  induction cs generalizing i with
  | nil => simp [listWF]
  | cons c rest ih =>
      rw [listWF_cons, Bool.and_eq_true] at h
      cases i with
      | zero => rw [List.set_cons_zero, listWF_cons, h.2, hv]; rfl
      | succ j =>
          rw [List.set_cons_succ, listWF_cons, h.1, ih h.2 j]; rfl

theorem nodeWF_setChild (n : LexNode) (h : nodeWF n = true) (i : Nat)
    (v : Option LexNode) (hv : slotWF v = true) : nodeWF (n.setChild i v) = true := by
  rw [nodeWF_eq]
  simp only [LexNode.children_setChild, List.length_set, Bool.and_eq_true,
    decide_eq_true_eq]
  exact ⟨nodeWF_length n h, listWF_set n.children (nodeWF_listWF n h) i v hv⟩

theorem nodeWF_setWord (n : LexNode) (h : nodeWF n = true) (w : Bool) :
    nodeWF (n.setWord w) = true := by
  rw [nodeWF_eq] at h ⊢
  simpa using h

theorem nodeWF_create : nodeWF create_node = true := by decide

/- Positional counting lemma. -/

theorem countWordsList_set (cs : List (Option LexNode)) (i : Nat) (v : Option LexNode)
    (h : i < cs.length) :
    countWordsList (cs.set i v) + countWordsSlot (cs.getD i none) =
      countWordsList cs + countWordsSlot v := by
  induction cs generalizing i with
  | nil => simp at h
  | cons c rest ih =>
      cases i with
      | zero =>
          rw [List.set_cons_zero, countWordsList_cons, countWordsList_cons,
            List.getD_cons_zero]
          omega
      | succ j =>
          rw [List.set_cons_succ, countWordsList_cons, countWordsList_cons,
            List.getD_cons_succ]
          have := ih j (by simpa using h)
          omega

/- noDead list lemmas. -/

theorem noDeadList_mem (cs : List (Option LexNode)) (h : noDeadList cs = true)
    (m : LexNode) (hm : some m ∈ cs) : noDead m = true := by
  induction cs with
  | nil => simp at hm
  | cons c rest ih =>
      rw [noDeadList_cons, Bool.and_eq_true] at h
      rcases List.mem_cons.mp hm with h1 | h1
      · rw [← h1] at h; exact h.1
      · exact ih h.2 h1

theorem noDeadList_getD (cs : List (Option LexNode)) (h : noDeadList cs = true)
    (i : Nat) (m : LexNode) (hg : cs.getD i none = some m) : noDead m = true :=
  noDeadList_mem cs h m (getD_some_mem cs i m hg)

theorem noDeadList_set (cs : List (Option LexNode)) (h : noDeadList cs = true) (i : Nat)
    (v : Option LexNode) (hv : noDeadSlot v = true) : noDeadList (cs.set i v) = true := by
  induction cs generalizing i with
  | nil => simp [noDeadList]
  | cons c rest ih =>
      rw [noDeadList_cons, Bool.and_eq_true] at h
      cases i with
      | zero => rw [List.set_cons_zero, noDeadList_cons, h.2, hv]; rfl
      | succ j => rw [List.set_cons_succ, noDeadList_cons, h.1, ih h.2 j]; rfl

theorem any_isSome_set_some (cs : List (Option LexNode)) (i : Nat) (m : LexNode)
    (h : i < cs.length) : (cs.set i (some m)).any (fun c => c.isSome) = true := by
  have hmem : some m ∈ cs.set i (some m) := by
    have : (cs.set i (some m)).getD i none = some m := by
      rw [List.getD_eq_getElem?_getD, List.getElem?_set_self (by simpa using h)]
      rfl
    exact getD_some_mem _ i m this
  simp only [List.any_eq_true]
  exact ⟨some m, hmem, rfl⟩

/- branch_contains_words agrees with a positive word count. -/

mutual
theorem bcw_eq_count (n : LexNode) : branch_contains_words n = decide (0 < countWords n) := by
  cases n with
  | mk w cs =>
      show (bcwList cs || w) = decide (0 < countWordsList cs + (if w then 1 else 0))
      rw [bcwList_eq_count cs]
      cases w <;> simp
theorem bcwList_eq_count (cs : List (Option LexNode)) :
    bcwList cs = decide (0 < countWordsList cs) := by
  cases cs with
  | nil => rfl
  | cons c rest =>
      rw [bcwList_cons, countWordsList_cons]
      cases c with
      | none =>
          show (false || bcwList rest) = _
          rw [bcwList_eq_count rest]
          simp [countWordsSlot]
      | some m =>
          show (branch_contains_words m || bcwList rest) = _
          rw [bcw_eq_count m, bcwList_eq_count rest]
          simp only [countWordsSlot, Bool.or_eq_decide, decide_eq_decide]
          omega
end

theorem bcw_false_count (n : LexNode) (h : branch_contains_words n = false) :
    countWords n = 0 := by
  rw [bcw_eq_count n] at h
  simpa using h

/- Walk and membership bridges. -/

theorem walkTot_none (w : List Nat) : walkTot none w = none := by
  cases w <;> rfl

theorem walkTot_append (slot : Option LexNode) (p q : List Nat) :
    walkTot slot (p ++ q) = walkTot (walkTot slot p) q := by
  induction p generalizing slot with
  | nil => cases slot <;> rfl
  | cons c cs ih =>
      cases slot with
      | none => rw [walkTot_none, walkTot_none]; exact (walkTot_none q).symm
      | some n => simp only [List.cons_append, walkTot]; exact ih _

theorem membW_eq_walkTot (slot : Option LexNode) (w : List Nat) :
    membW slot w = (walkTot slot w).elim false (fun n => n.is_word) := by
  induction w generalizing slot with
  | nil => cases slot <;> rfl
  | cons c cs ih =>
      cases slot with
      | none => rw [walkTot_none]; rfl
      | some n => simp only [membW, walkTot]; exact ih _

theorem alphaWord_of_lower (w : List Nat) (h : lowerWord w = true) : alphaWord w = true := by
  simp only [lowerWord, List.all_eq_true] at h
  simp only [alphaWord, List.all_eq_true]
  intro c hc
  have := h c hc
  simp only [isLowerAlpha, decide_eq_true_eq] at this
  simp only [isAlpha, decide_eq_true_eq]
  omega

theorem contains_walk_lower (slot : Option LexNode) (w : List Nat) (h : lowerWord w = true) :
    contains_walk slot w = some (walkTot slot w) := by
  induction w generalizing slot with
  | nil => cases slot <;> rfl
  | cons c cs ih =>
      simp only [lowerWord, List.all_cons, Bool.and_eq_true] at h
      cases slot with
      | none => rw [walkTot_none]; rfl
      | some n =>
          simp only [contains_walk, walkTot]
          rw [if_pos (charIdx_lower_bounds c h.1), charIdx_lower_toNat c h.1]
          exact ih _ h.2

theorem clex_contains_alpha (lex : CLexicon) (w : List Nat) (h : alphaWord w = true) :
    clex_contains lex w = some (membW lex.root (w.map toLowerC)) := by
  have hl := lowerWord_map_toLowerC w h
  simp only [clex_contains, clex_contains_helper]
  rw [contains_walk_lower lex.root _ hl, membW_eq_walkTot]
  cases walkTot lex.root (w.map toLowerC) with
  | none => rfl
  | some n => simp

theorem clex_contains_lower (lex : CLexicon) (w : List Nat) (h : lowerWord w = true) :
    clex_contains lex w = some (membW lex.root w) := by
  rw [clex_contains_alpha lex w (alphaWord_of_lower w h), map_toLowerC_of_lower w h]

theorem clex_contains_prefix_alpha (lex : CLexicon) (p : List Nat) (h : alphaWord p = true) :
    clex_contains_prefix_fn lex p = some (walkTot lex.root (p.map toLowerC)).isSome := by
  have hl := lowerWord_map_toLowerC p h
  simp only [clex_contains_prefix_fn, clex_contains_helper]
  rw [contains_walk_lower lex.root _ hl]
  cases walkTot lex.root (p.map toLowerC) with
  | none => rfl
  | some n => simp

/- Lemmas about the insertion walk. -/

theorem membW_create (ds : List Nat) : membW (some create_node) ds = false := by
  cases ds with
  | nil => rfl
  | cons d rest => simp only [membW, create_node_getChild]

theorem noDeadList_create : noDeadList create_node.children = true := by decide

theorem add_at_cons (n : LexNode) (c : Nat) (cs : List Nat) (h : isLowerAlpha c = true) :
    add_at n (c :: cs) =
      (match add_at ((n.getChild (c - 97)).getD create_node) cs with
       | none => none
       | some nx' => some (n.setChild (c - 97) (some nx'))) := by
  simp only [add_at]
  rw [if_pos (charIdx_lower_bounds c h), charIdx_lower_toNat c h]
  cases n.getChild (c - 97) <;> rfl

theorem add_at_total (n : LexNode) (cs : List Nat) (h : lowerWord cs = true) :
    ∃ n', add_at n cs = some n' := by
  induction cs generalizing n with
  | nil => exact ⟨n.setWord true, rfl⟩
  | cons c rest ih =>
      simp only [lowerWord, List.all_cons, Bool.and_eq_true] at h
      rw [add_at_cons n c rest h.1]
      obtain ⟨nx', hx⟩ := ih ((n.getChild (c - 97)).getD create_node)
        (by simp only [lowerWord]; exact h.2)
      rw [hx]
      exact ⟨_, rfl⟩

theorem add_at_WF (n : LexNode) (cs : List Nat) (n' : LexNode) (hWF : nodeWF n = true)
    (h : lowerWord cs = true) (ha : add_at n cs = some n') : nodeWF n' = true := by
  induction cs generalizing n n' with
  | nil =>
      simp only [add_at, Option.some_inj] at ha
      rw [← ha]
      exact nodeWF_setWord n hWF true
  | cons c rest ih =>
      simp only [lowerWord, List.all_cons, Bool.and_eq_true] at h
      rw [add_at_cons n c rest h.1] at ha
      cases hx : add_at ((n.getChild (c - 97)).getD create_node) rest with
      | none => rw [hx] at ha; simp at ha
      | some nx' =>
          rw [hx] at ha
          simp only [Option.some_inj] at ha
          have hnx : nodeWF ((n.getChild (c - 97)).getD create_node) = true := by
            cases hg : n.getChild (c - 97) with
            | none => simpa using nodeWF_create
            | some m => simpa using nodeWF_getChild n hWF _ m hg
          have hWFx := ih _ nx' hnx (by simp only [lowerWord]; exact h.2) hx
          rw [← ha]
          exact nodeWF_setChild n hWF _ _ (by simpa [slotWF] using hWFx)

theorem add_at_is_word (n : LexNode) (c : Nat) (cs : List Nat) (n' : LexNode)
    (h : isLowerAlpha c = true) (ha : add_at n (c :: cs) = some n') :
    n'.is_word = n.is_word := by
  rw [add_at_cons n c cs h] at ha
  cases hx : add_at ((n.getChild (c - 97)).getD create_node) cs with
  | none => rw [hx] at ha; simp at ha
  | some nx' =>
      rw [hx] at ha
      simp only [Option.some_inj] at ha
      rw [← ha]
      rfl

theorem nodeWF_getD_child (n : LexNode) (hWF : nodeWF n = true) (i : Nat) :
    nodeWF ((n.getChild i).getD create_node) = true := by
  cases hg : n.getChild i with
  | none => simpa using nodeWF_create
  | some m => simpa using nodeWF_getChild n hWF i m hg

theorem membW_getD_create (n : LexNode) (i : Nat) (ds : List Nat) :
    membW (some ((n.getChild i).getD create_node)) ds = membW (n.getChild i) ds := by
  cases hg : n.getChild i with
  | none => simp [membW_create, membW]
  | some m => simp

theorem countWords_create : countWords create_node = 0 := by decide

theorem countWords_getD_create (n : LexNode) (i : Nat) :
    countWords ((n.getChild i).getD create_node) = countWordsSlot (n.getChild i) := by
  cases hg : n.getChild i with
  | none => simpa [countWordsSlot] using countWords_create
  | some m => simp [countWordsSlot]

theorem membW_add_at (n : LexNode) (cs ds : List Nat) (n' : LexNode)
    (hWF : nodeWF n = true) (hcs : lowerWord cs = true) (hds : lowerWord ds = true)
    (ha : add_at n cs = some n') :
    membW (some n') ds = (membW (some n) ds || decide (cs = ds)) := by
  induction cs generalizing n n' ds with
  | nil =>
      simp only [add_at, Option.some_inj] at ha
      rw [← ha]
      cases ds with
      | nil => simp [membW]
      | cons d rest => simp [membW]
  | cons c crest ih =>
      simp only [lowerWord, List.all_cons, Bool.and_eq_true] at hcs
      rw [add_at_cons n c crest hcs.1] at ha
      cases hx : add_at ((n.getChild (c - 97)).getD create_node) crest with
      | none => rw [hx] at ha; simp at ha
      | some nx' =>
          rw [hx] at ha
          simp only [Option.some_inj] at ha
          have hlen : c - 97 < n.children.length := by
            rw [nodeWF_length n hWF]; exact lower_sub97_lt c hcs.1
          cases ds with
          | nil =>
              rw [← ha]
              simp [membW]
          | cons d drest =>
              simp only [lowerWord, List.all_cons, Bool.and_eq_true] at hds
              by_cases hdc : d = c
              · subst hdc
                rw [← ha]
                simp only [membW]
                rw [LexNode.getChild_setChild_self n (d - 97) _ hlen]
                rw [ih _ drest nx' (nodeWF_getD_child n hWF (d - 97))
                  (by simp only [lowerWord]; exact hcs.2) hds.2 hx]
                rw [membW_getD_create n (d - 97) drest]
                have heq : (d :: crest = d :: drest) ↔ (crest = drest) := by simp
                rw [decide_eq_decide.mpr heq]
              · rw [← ha]
                simp only [membW]
                rw [LexNode.getChild_setChild_ne n (c - 97) (d - 97) _
                  (lower_sub97_inj c d hcs.1 hds.1 (fun hh => hdc hh.symm))]
                have : decide (c :: crest = d :: drest) = false := by
                  simp [List.cons.injEq]
                  intro hh; exact absurd hh.symm hdc
                rw [this]
                simp

theorem countWords_add_at (n : LexNode) (cs : List Nat) (n' : LexNode)
    (hWF : nodeWF n = true) (hcs : lowerWord cs = true) (ha : add_at n cs = some n') :
    countWords n' = countWords n + (if membW (some n) cs = true then 0 else 1) := by
  induction cs generalizing n n' with
  | nil =>
      simp only [add_at, Option.some_inj] at ha
      rw [← ha]
      cases hw : n.is_word <;>
        simp [countWords_eq, membW, hw]
  | cons c crest ih =>
      simp only [lowerWord, List.all_cons, Bool.and_eq_true] at hcs
      rw [add_at_cons n c crest hcs.1] at ha
      cases hx : add_at ((n.getChild (c - 97)).getD create_node) crest with
      | none => rw [hx] at ha; simp at ha
      | some nx' =>
          rw [hx] at ha
          simp only [Option.some_inj] at ha
          have hlen : c - 97 < n.children.length := by
            rw [nodeWF_length n hWF]; exact lower_sub97_lt c hcs.1
          have hset := countWordsList_set n.children (c - 97) (some nx') hlen
          have hih := ih _ nx' (nodeWF_getD_child n hWF (c - 97))
            (by simp only [lowerWord]; exact hcs.2) hx
          rw [countWords_getD_create n (c - 97)] at hih
          rw [membW_getD_create n (c - 97) crest] at hih
          have hm : membW (some n) (c :: crest) = membW (n.getChild (c - 97)) crest := by
            simp [membW]
          rw [← ha]
          rw [countWords_eq, countWords_eq n]
          simp only [LexNode.children_setChild, LexNode.is_word_setChild]
          rw [hm]
          simp only [LexNode.getChild] at hih ⊢
          have hsl : countWordsSlot (some nx') = countWords nx' := rfl
          rw [hsl] at hset
          by_cases hmu : membW (n.children.getD (c - 97) none) crest = true
          · rw [if_pos hmu] at hih ⊢; omega
          · rw [if_neg hmu] at hih ⊢; omega

theorem noDead_add_at (n : LexNode) (cs : List Nat) (n' : LexNode)
    (hWF : nodeWF n = true) (hcs : lowerWord cs = true)
    (hnd : noDeadList n.children = true) (ha : add_at n cs = some n') :
    noDead n' = true := by
  induction cs generalizing n n' with
  | nil =>
      simp only [add_at, Option.some_inj] at ha
      rw [← ha, noDead_eq]
      simp [hnd]
  | cons c crest ih =>
      simp only [lowerWord, List.all_cons, Bool.and_eq_true] at hcs
      rw [add_at_cons n c crest hcs.1] at ha
      cases hx : add_at ((n.getChild (c - 97)).getD create_node) crest with
      | none => rw [hx] at ha; simp at ha
      | some nx' =>
          rw [hx] at ha
          simp only [Option.some_inj] at ha
          have hlen : c - 97 < n.children.length := by
            rw [nodeWF_length n hWF]; exact lower_sub97_lt c hcs.1
          have hndx : noDeadList ((n.getChild (c - 97)).getD create_node).children = true := by
            cases hg : n.getChild (c - 97) with
            | none => simpa using noDeadList_create
            | some m =>
                have := noDeadList_getD n.children hnd (c - 97) m hg
                rw [noDead_eq, Bool.and_eq_true] at this
                simpa using this.2
          have hnx' := ih _ nx' (nodeWF_getD_child n hWF (c - 97))
            (by simp only [lowerWord]; exact hcs.2) hndx hx
          rw [← ha, noDead_eq]
          simp only [LexNode.children_setChild, LexNode.is_word_setChild]
          rw [any_isSome_set_some n.children (c - 97) nx' hlen]
          rw [noDeadList_set n.children hnd (c - 97) (some nx') (by simpa [noDeadSlot] using hnx')]
          simp

/- Shape lemmas for the removal descent. -/

theorem membW_none (ds : List Nat) : membW none ds = false := by
  cases ds <;> rfl

theorem walkTot_cons (n : LexNode) (c : Nat) (cs : List Nat) :
    walkTot (some n) (c :: cs) = walkTot (n.getChild (c - 97)) cs := rfl

theorem membW_cons (n : LexNode) (c : Nat) (cs : List Nat) :
    membW (some n) (c :: cs) = membW (n.getChild (c - 97)) cs := rfl

theorem reachSlot_cons (n : LexNode) (c : Nat) (cs : List Nat) :
    reachSlot (some n) (c :: cs) = reachSlot (n.getChild (c - 97)) cs := rfl

theorem remove_core_none_single (c : Nat) : remove_core none [c] = none := rfl

theorem remove_core_some_single (n : LexNode) (c : Nat) (h : isLowerAlpha c = true) :
    remove_core (some n) [c] =
      (match n.getChild (c - 97) with
       | none => some .notFound
       | some wn =>
           if (wn.setWord false).hasChild = true then
             some (.removed (some (n.setChild (c - 97) (some (wn.setWord false)))) false)
           else
             some (.removed (some (n.setChild (c - 97) none)) true)) := by
  simp only [remove_core]
  rw [if_pos (charIdx_lower_bounds c h), charIdx_lower_toNat c h]

theorem remove_core_none_cons (c c2 : Nat) (cs : List Nat) :
    remove_core none (c :: c2 :: cs) = some .notFound := rfl

theorem countWords_setWord_false (wn : LexNode) :
    countWords (wn.setWord false) = countWordsList wn.children := by
  rw [countWords_eq]; simp

theorem remove_core_some_cons (n : LexNode) (c c2 : Nat) (cs : List Nat)
    (h : isLowerAlpha c = true) :
    remove_core (some n) (c :: c2 :: cs) =
      (match remove_core (n.getChild (c - 97)) (c2 :: cs) with
       | none => none
       | some .notFound => some .notFound
       | some (.removed s' pruned) =>
           some (.removed (some (n.setChild (c - 97) s')) pruned)) := by
  simp only [remove_core]
  rw [if_pos (charIdx_lower_bounds c h), charIdx_lower_toNat c h]

theorem remove_core_spec (w : List Nat) : ∀ (slot : Option LexNode),
    lowerWord w = true → w ≠ [] → slotWF slot = true →
    (remove_core slot w = none ↔ reachSlot slot w.dropLast = some none) ∧
    (remove_core slot w = some .notFound → walkTot slot w = none) ∧
    (∀ slot' pruned, remove_core slot w = some (.removed slot' pruned) →
      ∃ n0 wn m, slot = some n0 ∧ slot' = some m ∧ walkTot slot w = some wn ∧
        m.is_word = n0.is_word ∧ nodeWF m = true ∧
        countWords m + (if wn.is_word then 1 else 0) = countWords n0 ∧
        (∀ ds, lowerWord ds = true →
          membW slot' ds = (membW slot ds && !(decide (w = ds)))) ∧
        (pruned = false → noDead n0 = true → noDead m = true)) := by
  induction w with
  | nil => intro slot _ hne _; exact absurd rfl hne
  | cons c cs ih =>
      intro slot hw hne hWF
      have hc : isLowerAlpha c = true := by
        simp only [lowerWord, List.all_cons, Bool.and_eq_true] at hw; exact hw.1
      have hcs : lowerWord cs = true := by
        simp only [lowerWord, List.all_cons, Bool.and_eq_true] at hw
        simp only [lowerWord]; exact hw.2
      cases cs with
      | nil =>
          cases slot with
          | none =>
              refine ⟨?_, ?_, ?_⟩
              · rw [remove_core_none_single]
                simp [reachSlot]
              · intro hnf; rw [remove_core_none_single] at hnf; simp at hnf
              · intro s' p hr; rw [remove_core_none_single] at hr; simp at hr
          | some n =>
              have hn : nodeWF n = true := by simpa [slotWF] using hWF
              have hlen : c - 97 < n.children.length := by
                rw [nodeWF_length n hn]; exact lower_sub97_lt c hc
              rw [remove_core_some_single n c hc]
              cases hg : n.getChild (c - 97) with
              | none =>
                  refine ⟨?_, ?_, ?_⟩
                  · simp [reachSlot]
                  · intro _
                    rw [walkTot_cons, hg, walkTot_none]
                  · intro s' p hr; simp at hr
              | some wn =>
                  dsimp only
                  have hwalk : walkTot (some n) [c] = some wn := by
                    rw [walkTot_cons, hg]; rfl
                  have hwnWF : nodeWF wn = true := nodeWF_getChild n hn _ wn hg
                  have hgetD : n.children.getD (c - 97) none = some wn := hg
                  by_cases hch : (wn.setWord false).hasChild = true
                  · rw [if_pos hch]
                    refine ⟨by simp [reachSlot], by intro hx; simp at hx, ?_⟩
                    intro s' p hr
                    simp only [Option.some_inj, RemoveRes.removed.injEq] at hr
                    obtain ⟨hs, hpp⟩ := hr
                    subst hs
                    subst hpp
                    refine ⟨n, wn, n.setChild (c - 97) (some (wn.setWord false)),
                      rfl, rfl, hwalk, by simp, ?_, ?_, ?_, ?_⟩
                    · exact nodeWF_setChild n hn _ _
                        (by simpa [slotWF] using nodeWF_setWord wn hwnWF false)
                    · have hset := countWordsList_set n.children (c - 97)
                        (some (wn.setWord false)) hlen
                      rw [hgetD] at hset
                      have h1 : countWordsSlot (some wn) = countWords wn := rfl
                      have h2 : countWordsSlot (some (wn.setWord false)) =
                          countWordsList wn.children := by
                        simp [countWordsSlot, countWords_setWord_false]
                      rw [h1, h2] at hset
                      have h3 := countWords_eq wn
                      rw [countWords_eq (n.setChild (c - 97) (some (wn.setWord false))),
                        countWords_eq n]
                      simp only [LexNode.children_setChild, LexNode.is_word_setChild]
                      omega
                    · intro ds hds
                      cases ds with
                      | nil => simp [membW]
                      | cons d drest =>
                          simp only [lowerWord, List.all_cons, Bool.and_eq_true] at hds
                          by_cases hdc : d = c
                          · subst hdc
                            rw [membW_cons, membW_cons,
                              LexNode.getChild_setChild_self n (d - 97) _ hlen, hg]
                            cases drest with
                            | nil =>
                                simp [membW]
                            | cons e r2 =>
                                rw [membW_cons, membW_cons, LexNode.getChild_setWord]
                                have : decide ([d] = d :: e :: r2) = false := by simp
                                rw [this]
                                simp
                          · rw [membW_cons, membW_cons,
                              LexNode.getChild_setChild_ne n (c - 97) (d - 97) _
                                (lower_sub97_inj c d hc hds.1 (fun hh => hdc hh.symm))]
                            have : decide ([c] = d :: drest) = false := by
                              simp only [decide_eq_false_iff_not]
                              intro hh
                              injection hh with h1 h2
                              exact hdc h1.symm
                            rw [this]
                            simp
                    · intro hp hnd
                      rw [noDead_eq] at hnd ⊢
                      simp only [Bool.and_eq_true] at hnd
                      simp only [LexNode.children_setChild, LexNode.is_word_setChild]
                      rw [any_isSome_set_some n.children (c - 97) _ hlen]
                      have hwnnd : noDead wn = true :=
                        noDeadList_getD n.children hnd.2 (c - 97) wn hgetD
                      have hwn'nd : noDead (wn.setWord false) = true := by
                        rw [noDead_eq]
                        simp only [LexNode.is_word_setWord, LexNode.children_setWord]
                        rw [noDead_eq, Bool.and_eq_true] at hwnnd
                        have : wn.children.any (fun c => c.isSome) = true := by
                          have := hch
                          simpa [LexNode.hasChild] using this
                        simp [this, hwnnd.2]
                      rw [noDeadList_set n.children hnd.2 (c - 97) _
                        (by simpa [noDeadSlot] using hwn'nd)]
                      simp
                  · rw [if_neg hch]
                    refine ⟨by simp [reachSlot], by intro hx; simp at hx, ?_⟩
                    intro s' p hr
                    simp only [Option.some_inj, RemoveRes.removed.injEq] at hr
                    obtain ⟨hs, hpp⟩ := hr
                    subst hs
                    subst hpp
                    have hchf : (wn.setWord false).hasChild = false := by
                      simpa using hch
                    have hwnchild : ∀ j, wn.getChild j = none := by
                      intro j
                      have := hasChild_false_getChild _ hchf j
                      simpa [LexNode.getChild] using this
                    refine ⟨n, wn, n.setChild (c - 97) none,
                      rfl, rfl, hwalk, by simp, ?_, ?_, ?_, ?_⟩
                    · exact nodeWF_setChild n hn _ _ (by simp [slotWF])
                    · have hset := countWordsList_set n.children (c - 97) none hlen
                      rw [hgetD] at hset
                      have h1 : countWordsSlot (some wn) = countWords wn := rfl
                      have h2 : countWordsSlot (none : Option LexNode) = 0 := rfl
                      rw [h1, h2] at hset
                      have h4 : countWordsList wn.children = 0 := by
                        apply countWordsList_all_none
                        have := hchf
                        simpa [LexNode.hasChild] using this
                      have h3 := countWords_eq wn
                      rw [countWords_eq (n.setChild (c - 97) none), countWords_eq n]
                      simp only [LexNode.children_setChild, LexNode.is_word_setChild]
                      omega
                    · intro ds hds
                      cases ds with
                      | nil => simp [membW]
                      | cons d drest =>
                          simp only [lowerWord, List.all_cons, Bool.and_eq_true] at hds
                          by_cases hdc : d = c
                          · subst hdc
                            rw [membW_cons, membW_cons,
                              LexNode.getChild_setChild_self n (d - 97) _ hlen, hg]
                            rw [membW_none]
                            cases drest with
                            | nil => simp
                            | cons e r2 =>
                                rw [membW_cons, hwnchild (e - 97), membW_none]
                                simp
                          · rw [membW_cons, membW_cons,
                              LexNode.getChild_setChild_ne n (c - 97) (d - 97) _
                                (lower_sub97_inj c d hc hds.1 (fun hh => hdc hh.symm))]
                            have : decide ([c] = d :: drest) = false := by
                              simp only [decide_eq_false_iff_not]
                              intro hh
                              injection hh with h1 h2
                              exact hdc h1.symm
                            rw [this]
                            simp
                    · intro hp
                      simp at hp
      | cons c2 cs2 =>
          cases slot with
          | none =>
              refine ⟨?_, ?_, ?_⟩
              · rw [remove_core_none_cons]
                constructor
                · intro hh; simp at hh
                · intro hh
                  rw [show (c :: c2 :: cs2).dropLast = c :: (c2 :: cs2).dropLast from rfl,
                    reachSlot] at hh
                  simp at hh
              · intro _; rw [walkTot_none]
              · intro s' p hr; rw [remove_core_none_cons] at hr; simp at hr
          | some n =>
              have hn : nodeWF n = true := by simpa [slotWF] using hWF
              have hlen : c - 97 < n.children.length := by
                rw [nodeWF_length n hn]; exact lower_sub97_lt c hc
              have hchildWF : slotWF (n.getChild (c - 97)) = true := by
                cases hg : n.getChild (c - 97) with
                | none => rfl
                | some m => simpa [slotWF] using nodeWF_getChild n hn _ m hg
              have ihc := ih (n.getChild (c - 97)) hcs (by simp) hchildWF
              rw [remove_core_some_cons n c c2 cs2 hc]
              have hdl : (c :: c2 :: cs2).dropLast = c :: (c2 :: cs2).dropLast := rfl
              cases hrec : remove_core (n.getChild (c - 97)) (c2 :: cs2) with
              | none =>
                  dsimp only
                  refine ⟨?_, ?_, ?_⟩
                  · rw [hdl, reachSlot_cons]
                    simp only [true_iff]
                    exact (ihc.1).mp hrec
                  · intro hh; simp at hh
                  · intro s' p hr; simp at hr
              | some res =>
                  cases res with
                  | notFound =>
                      dsimp only
                      refine ⟨?_, ?_, ?_⟩
                      · rw [hdl, reachSlot_cons]
                        constructor
                        · intro hh; simp at hh
                        · intro hh
                          have := (ihc.1).mpr hh
                          rw [hrec] at this; simp at this
                      · intro _
                        rw [walkTot_cons]
                        exact ihc.2.1 hrec
                      · intro s' p hr; simp at hr
                  | removed s'c pc =>
                      dsimp only
                      obtain ⟨nc0, wnc, mc, hceq, hs'c, hcwalk, hcword, hcWF,
                        hccount, hcmemb, hcnd⟩ := ihc.2.2 s'c pc hrec
                      refine ⟨?_, ?_, ?_⟩
                      · rw [hdl, reachSlot_cons]
                        constructor
                        · intro hh; simp at hh
                        · intro hh
                          have := (ihc.1).mpr hh
                          rw [hrec] at this; simp at this
                      · intro hh; simp at hh
                      · intro s' p hr
                        simp only [Option.some_inj, RemoveRes.removed.injEq] at hr
                        obtain ⟨hs, hpp⟩ := hr
                        subst hs
                        subst hpp
                        have hgetD : n.children.getD (c - 97) none = some nc0 := hceq
                        refine ⟨n, wnc, n.setChild (c - 97) s'c, rfl, rfl, ?_,
                          by simp, ?_, ?_, ?_, ?_⟩
                        · rw [walkTot_cons]; exact hcwalk
                        · exact nodeWF_setChild n hn _ _
                            (by rw [hs'c]; simpa [slotWF] using hcWF)
                        · have hset := countWordsList_set n.children (c - 97) s'c hlen
                          rw [hgetD] at hset
                          have h1 : countWordsSlot (some nc0) = countWords nc0 := rfl
                          have h2 : countWordsSlot s'c = countWords mc := by
                            rw [hs'c]; rfl
                          rw [h1, h2] at hset
                          rw [countWords_eq (n.setChild (c - 97) s'c), countWords_eq n]
                          simp only [LexNode.children_setChild, LexNode.is_word_setChild]
                          omega
                        · intro ds hds
                          cases ds with
                          | nil =>
                              have : decide (c :: c2 :: cs2 = ([] : List Nat)) = false := by
                                simp
                              rw [this]
                              simp [membW]
                          | cons d drest =>
                              simp only [lowerWord, List.all_cons, Bool.and_eq_true] at hds
                              by_cases hdc : d = c
                              · subst hdc
                                rw [membW_cons, membW_cons,
                                  LexNode.getChild_setChild_self n (d - 97) _ hlen]
                                rw [hcmemb drest (by simp only [lowerWord]; exact hds.2)]
                                have : decide (d :: c2 :: cs2 = d :: drest) =
                                    decide (c2 :: cs2 = drest) := by
                                  apply decide_eq_decide.mpr
                                  simp
                                rw [this]
                              · rw [membW_cons, membW_cons,
                                  LexNode.getChild_setChild_ne n (c - 97) (d - 97) _
                                    (lower_sub97_inj c d hc hds.1 (fun hh => hdc hh.symm))]
                                have : decide (c :: c2 :: cs2 = d :: drest) = false := by
                                  simp only [decide_eq_false_iff_not]
                                  intro hh
                                  injection hh with h1 h2
                                  exact hdc h1.symm
                                rw [this]
                                simp
                        · intro hp hnd
                          rw [noDead_eq] at hnd
                          simp only [Bool.and_eq_true] at hnd
                          have hnc0nd : noDead nc0 = true :=
                            noDeadList_getD n.children hnd.2 (c - 97) nc0 hgetD
                          have hmcnd : noDead mc = true := hcnd hp hnc0nd
                          rw [noDead_eq]
                          simp only [LexNode.children_setChild, LexNode.is_word_setChild]
                          rw [hs'c]
                          rw [any_isSome_set_some n.children (c - 97) _ hlen]
                          rw [noDeadList_set n.children hnd.2 (c - 97) _
                            (by simpa [noDeadSlot] using hmcnd)]
                          simp

/- Scrub lemmas. -/

theorem scrubNode_keep (m : LexNode) (h : branch_contains_words m = true) :
    ∃ m', (scrubNode m).1 = some m' := by
  rw [scrubNode_eq, if_pos (by simp [h])]
  exact ⟨_, rfl⟩

theorem scrubNode_word (n m : LexNode) (h : (scrubNode n).1 = some m) :
    m.is_word = n.is_word := by
  rw [scrubNode_eq] at h
  split at h
  · simp only [Option.some_inj] at h
    rw [← h]
    exact LexNode.is_word_mk _ _
  · simp at h

theorem scrubList_length (cs : List (Option LexNode)) :
    (scrubList cs).1.length = cs.length := by
  induction cs with
  | nil => rfl
  | cons c rest ih =>
      rw [scrubList_cons]
      simp [ih]

mutual
theorem scrubNode_count (n : LexNode) :
    (scrubNode n).2 = 0 ∧ countWordsSlot (scrubNode n).1 = countWords n := by
  cases n with
  | mk w cs =>
      rw [scrubNode_eq]
      split
      · have hl := scrubList_count cs
        constructor
        · exact hl.1
        · simp only [countWordsSlot]
          rw [countWords_eq, countWords_eq]
          simp only [LexNode.children_mk, LexNode.is_word_mk]
          rw [hl.2]
      · rename_i hcond
        simp only [LexNode.is_word_mk, Bool.or_eq_true, not_or] at hcond
        have hw : w = false := by
          cases hww : w
          · rfl
          · exact absurd (by simp [hww] : w = true) hcond.1
        have hbcw : branch_contains_words (LexNode.mk w cs) = false := by
          cases hbb : branch_contains_words (LexNode.mk w cs)
          · rfl
          · exact absurd hbb hcond.2
        have hcw := bcw_false_count _ hbcw
        constructor
        · simp only [delete_node_decrements, LexNode.children_mk]
          rw [countWords_eq] at hcw
          simp only [LexNode.children_mk, LexNode.is_word_mk, hw] at hcw
          omega
        · simp only [countWordsSlot]
          omega
theorem scrubList_count (cs : List (Option LexNode)) :
    (scrubList cs).2 = 0 ∧ countWordsList (scrubList cs).1 = countWordsList cs := by
  cases cs with
  | nil => exact ⟨rfl, rfl⟩
  | cons c rest =>
      rw [scrubList_cons]
      have hr := scrubList_count rest
      cases c with
      | none =>
          simp only [scrubSlot, countWordsList_cons]
          refine ⟨by simpa using hr.1, ?_⟩
          simp [countWordsSlot, hr.2]
      | some m =>
          have hm := scrubNode_count m
          simp only [scrubSlot, countWordsList_cons]
          constructor
          · rw [hm.1, hr.1]
          · rw [hr.2, hm.2]
            simp [countWordsSlot]
end

theorem scrubList_some_of_bcw (cs : List (Option LexNode)) (h : bcwList cs = true) :
    ((scrubList cs).1.any (fun c => c.isSome)) = true := by
  induction cs with
  | nil => simp [bcwList] at h
  | cons c rest ih =>
      rw [bcwList_cons] at h
      rw [scrubList_cons]
      simp only [List.any_cons, Bool.or_eq_true]
      cases hc : bcwSlot c with
      | true =>
          left
          cases c with
          | none => simp [bcwSlot] at hc
          | some m =>
              obtain ⟨m', hm'⟩ := scrubNode_keep m (by simpa [bcwSlot] using hc)
              simp [scrubSlot, hm']
      | false =>
          right
          rw [hc] at h
          simp only [Bool.false_or] at h
          exact ih h

mutual
theorem scrubNode_noDead (n : LexNode) :
    (scrubNode n).1 = none ∨ ∃ m, (scrubNode n).1 = some m ∧ noDead m = true := by
  cases n with
  | mk w cs =>
      rw [scrubNode_eq]
      split
      · right
        refine ⟨_, rfl, ?_⟩
        rename_i hcond
        rw [noDead_eq]
        simp only [LexNode.is_word_mk, LexNode.children_mk]
        rw [scrubList_noDead cs]
        simp only [Bool.and_true]
        simp only [LexNode.is_word_mk, bcw_eq, LexNode.children_mk,
          Bool.or_eq_true] at hcond
        rcases hcond with hw | hbl | hw
        · simp [hw]
        · rw [scrubList_some_of_bcw cs hbl]
          simp
        · simp [hw]
      · left; rfl
theorem scrubList_noDead (cs : List (Option LexNode)) :
    noDeadList (scrubList cs).1 = true := by
  cases cs with
  | nil => rfl
  | cons c rest =>
      rw [scrubList_cons, noDeadList_cons]
      rw [scrubList_noDead rest]
      simp only [Bool.and_true]
      cases c with
      | none => rfl
      | some m =>
          rcases scrubNode_noDead m with hm | ⟨m', hm', hnd⟩
          · simp [scrubSlot, hm, noDeadSlot]
          · simp [scrubSlot, hm', noDeadSlot, hnd]
end

mutual
theorem scrubNode_WF (n : LexNode) (h : nodeWF n = true) : slotWF (scrubNode n).1 = true := by
  cases n with
  | mk w cs =>
      rw [scrubNode_eq]
      split
      · simp only [slotWF]
        rw [nodeWF_eq]
        simp only [LexNode.children_mk]
        simp only [scrubList_length cs]
        rw [nodeWF_eq] at h
        simp only [LexNode.children_mk, Bool.and_eq_true] at h
        rw [scrubList_WF cs h.2]
        simp only [Bool.and_true]
        exact h.1
      · rfl
theorem scrubList_WF (cs : List (Option LexNode)) (h : listWF cs = true) :
    listWF (scrubList cs).1 = true := by
  cases cs with
  | nil => rfl
  | cons c rest =>
      rw [listWF_cons, Bool.and_eq_true] at h
      rw [scrubList_cons, listWF_cons]
      rw [scrubList_WF rest h.2]
      simp only [Bool.and_true]
      cases c with
      | none => rfl
      | some m => exact scrubNode_WF m (by simpa [slotWF] using h.1)
end

theorem scrubSlot_count (s : Option LexNode) :
    (scrubSlot s).2 = 0 ∧ countWordsSlot (scrubSlot s).1 = countWordsSlot s := by
  cases s with
  | none => exact ⟨rfl, rfl⟩
  | some n => exact scrubNode_count n

theorem scrubSlot_noDead (s : Option LexNode) : noDeadSlot (scrubSlot s).1 = true := by
  cases s with
  | none => rfl
  | some n =>
      rcases scrubNode_noDead n with hm | ⟨m, hm, hnd⟩
      · simp [scrubSlot, hm, noDeadSlot]
      · simp [scrubSlot, hm, noDeadSlot, hnd]

theorem scrubSlot_WF (s : Option LexNode) (h : slotWF s = true) :
    slotWF (scrubSlot s).1 = true := by
  cases s with
  | none => rfl
  | some n => exact scrubNode_WF n (by simpa [slotWF] using h)

/- Prefix-removal lemmas. -/

theorem remove_prefix_at_none (p : List Nat) :
    remove_prefix_at none p = some (false, none, 0) := by
  cases p <;> rfl

theorem remove_prefix_at_some_nil (n : LexNode) :
    remove_prefix_at (some n) [] = some (true, none, countWords n) := rfl

theorem remove_prefix_at_some_cons (n : LexNode) (c : Nat) (cs : List Nat)
    (h : isLowerAlpha c = true) :
    remove_prefix_at (some n) (c :: cs) =
      (match remove_prefix_at (n.getChild (c - 97)) cs with
       | none => none
       | some (false, _, _) => some (false, some n, 0)
       | some (true, s', d) => some (true, some (n.setChild (c - 97) s'), d)) := by
  simp only [remove_prefix_at]
  rw [if_pos (charIdx_lower_bounds c h), charIdx_lower_toNat c h]

theorem remove_prefix_at_spec (p : List Nat) : ∀ (slot : Option LexNode),
    lowerWord p = true → slotWF slot = true →
    ∃ b slot' d, remove_prefix_at slot p = some (b, slot', d) ∧
      b = (walkTot slot p).isSome ∧
      (b = false → slot' = slot ∧ d = 0) ∧
      slotWF slot' = true ∧
      countWordsSlot slot' + d = countWordsSlot slot ∧
      d = countWordsSlot (walkTot slot p) ∧
      (∀ ds, lowerWord ds = true →
        membW slot' ds = (membW slot ds && !(decide (p <+: ds)))) := by
  induction p with
  | nil =>
      intro slot hp hWF
      cases slot with
      | none =>
          refine ⟨false, none, 0, remove_prefix_at_none [], rfl, fun _ => ⟨rfl, rfl⟩,
            rfl, rfl, rfl, ?_⟩
          intro ds hds
          rw [membW_none]
          simp
      | some n =>
          refine ⟨true, none, countWords n, remove_prefix_at_some_nil n, rfl,
            by intro hh; simp at hh, rfl, ?_, rfl, ?_⟩
          · simp [countWordsSlot]
          · intro ds hds
            rw [membW_none]
            simp [List.nil_prefix]
  | cons c cs ih =>
      intro slot hp hWF
      have hc : isLowerAlpha c = true := by
        simp only [lowerWord, List.all_cons, Bool.and_eq_true] at hp; exact hp.1
      have hcs : lowerWord cs = true := by
        simp only [lowerWord, List.all_cons, Bool.and_eq_true] at hp
        simp only [lowerWord]; exact hp.2
      cases slot with
      | none =>
          refine ⟨false, none, 0, remove_prefix_at_none _, by rw [walkTot_none]; rfl,
            fun _ => ⟨rfl, rfl⟩, rfl, rfl, by rw [walkTot_none]; rfl, ?_⟩
          intro ds hds
          rw [membW_none]
          simp
      | some n =>
          have hn : nodeWF n = true := by simpa [slotWF] using hWF
          have hlen : c - 97 < n.children.length := by
            rw [nodeWF_length n hn]; exact lower_sub97_lt c hc
          have hchildWF : slotWF (n.getChild (c - 97)) = true := by
            cases hg : n.getChild (c - 97) with
            | none => rfl
            | some m => simpa [slotWF] using nodeWF_getChild n hn _ m hg
          obtain ⟨b, s'c, d, heq, hb, hfls, hWF', hcount, hd, hmemb⟩ :=
            ih (n.getChild (c - 97)) hcs hchildWF
          rw [remove_prefix_at_some_cons n c cs hc, heq]
          cases b with
          | false =>
              obtain ⟨hsl, hd0⟩ := hfls rfl
              subst hsl
              subst hd0
              have hwnone : walkTot (n.getChild (c - 97)) cs = none := by
                cases hww : walkTot (n.getChild (c - 97)) cs with
                | none => rfl
                | some x => rw [hww] at hb; simp at hb
              refine ⟨false, some n, 0, rfl, ?_, fun _ => ⟨rfl, rfl⟩, hWF, by simp, ?_, ?_⟩
              · rw [walkTot_cons, hwnone]; rfl
              · rw [walkTot_cons, hwnone]; rfl
              · intro ds hds
                cases ds with
                | nil =>
                    have : decide ((c :: cs) <+: ([] : List Nat)) = false := by
                      simp [List.prefix_nil]
                    rw [this]
                    simp
                | cons e ds2 =>
                    simp only [lowerWord, List.all_cons, Bool.and_eq_true] at hds
                    by_cases hec : e = c
                    · subst hec
                      rw [membW_cons]
                      have hch := hmemb ds2 (by simp only [lowerWord]; exact hds.2)
                      have hpc : decide ((e :: cs) <+: (e :: ds2)) =
                          decide (cs <+: ds2) := by
                        apply decide_eq_decide.mpr
                        exact ⟨fun hh => (List.cons_prefix_cons.mp hh).2,
                          fun hh => List.cons_prefix_cons.mpr ⟨rfl, hh⟩⟩
                      rw [hpc]
                      by_cases hp2 : cs <+: ds2
                      · rw [hch]
                        simp [hp2]
                      · simp [hp2]
                    · rw [membW_cons]
                      have : decide ((c :: cs) <+: (e :: ds2)) = false := by
                        simp only [decide_eq_false_iff_not]
                        intro hh
                        exact hec (List.cons_prefix_cons.mp hh).1.symm
                      rw [this]
                      simp
          | true =>
              refine ⟨true, some (n.setChild (c - 97) s'c), d, rfl, ?_, ?_, ?_, ?_, ?_, ?_⟩
              · rw [walkTot_cons]; exact hb
              · intro hh; simp at hh
              · exact nodeWF_setChild n hn _ _ hWF'
              · have hset := countWordsList_set n.children (c - 97) s'c hlen
                have h1 : countWordsSlot (some (n.setChild (c - 97) s'c)) =
                    countWordsList (n.children.set (c - 97) s'c) +
                      (if n.is_word then 1 else 0) := by
                  simp only [countWordsSlot]
                  rw [countWords_eq]
                  simp
                have h2 : countWordsSlot (some n) =
                    countWordsList n.children + (if n.is_word then 1 else 0) := by
                  simp only [countWordsSlot]
                  rw [countWords_eq]
                simp only [LexNode.getChild] at hcount
                rw [h1, h2]
                omega
              · rw [walkTot_cons]; exact hd
              · intro ds hds
                cases ds with
                | nil =>
                    have : decide ((c :: cs) <+: ([] : List Nat)) = false := by
                      simp [List.prefix_nil]
                    rw [this]
                    simp [membW]
                | cons e ds2 =>
                    simp only [lowerWord, List.all_cons, Bool.and_eq_true] at hds
                    by_cases hec : e = c
                    · subst hec
                      rw [membW_cons, membW_cons,
                        LexNode.getChild_setChild_self n (e - 97) _ hlen]
                      rw [hmemb ds2 (by simp only [lowerWord]; exact hds.2)]
                      have hpc : decide ((e :: cs) <+: (e :: ds2)) =
                          decide (cs <+: ds2) := by
                        apply decide_eq_decide.mpr
                        exact ⟨fun hh => (List.cons_prefix_cons.mp hh).2,
                          fun hh => List.cons_prefix_cons.mpr ⟨rfl, hh⟩⟩
                      rw [hpc]
                    · rw [membW_cons, membW_cons,
                        LexNode.getChild_setChild_ne n (c - 97) (e - 97) _
                          (lower_sub97_inj c e hc hds.1 (fun hh => hec hh.symm))]
                      have : decide ((c :: cs) <+: (e :: ds2)) = false := by
                        simp only [decide_eq_false_iff_not]
                        intro hh
                        exact hec (List.cons_prefix_cons.mp hh).1.symm
                      rw [this]
                      simp

/- Word-enumeration lemmas. -/

mutual
theorem wordsIn_length (n : LexNode) : (wordsIn n).length = countWords n := by
  cases n with
  | mk w cs =>
      rw [wordsIn_eq, countWords_eq]
      simp only [List.length_append, LexNode.is_word_mk, LexNode.children_mk]
      rw [wordsInList_length 97 cs]
      cases w <;> simp <;> omega
theorem wordsInList_length (k : Nat) (cs : List (Option LexNode)) :
    (wordsInList k cs).length = countWordsList cs := by
  cases cs with
  | nil => rfl
  | cons c rest =>
      rw [wordsInList_cons, countWordsList_cons]
      simp only [List.length_append]
      rw [wordsInList_length (k + 1) rest]
      cases c with
      | none => simp [wordsInSlot, countWordsSlot]
      | some m => simp [wordsInSlot, countWordsSlot, wordsIn_length m]
end

theorem wordsInList_ne_nil (k : Nat) (csl : List (Option LexNode)) (t : List Nat)
    (ht : t ∈ wordsInList k csl) : t ≠ [] := by
  induction csl generalizing k with
  | nil => simp [wordsInList] at ht
  | cons s rest ih =>
      rw [wordsInList_cons] at ht
      rcases List.mem_append.mp ht with h1 | h1
      · cases s with
        | none => simp [wordsInSlot] at h1
        | some m =>
            simp only [wordsInSlot, List.mem_map] at h1
            obtain ⟨t2, _, ht2⟩ := h1
            rw [← ht2]
            simp
      · exact ih (k + 1) h1

theorem wordsInList_head_ge (k : Nat) (csl : List (Option LexNode)) (t : List Nat)
    (ht : t ∈ wordsInList k csl) : ∃ c2 t2, t = c2 :: t2 ∧ k ≤ c2 := by
  induction csl generalizing k with
  | nil => simp [wordsInList] at ht
  | cons s rest ih =>
      rw [wordsInList_cons] at ht
      rcases List.mem_append.mp ht with h1 | h1
      · cases s with
        | none => simp [wordsInSlot] at h1
        | some m =>
            simp only [wordsInSlot, List.mem_map] at h1
            obtain ⟨t2, _, ht2⟩ := h1
            exact ⟨k, t2, ht2.symm, Nat.le_refl k⟩
      · obtain ⟨c2, t2, heq, hge⟩ := ih (k + 1) h1
        exact ⟨c2, t2, heq, by omega⟩

theorem mem_wordsInList (c : Nat) (cs' : List Nat) : ∀ (k : Nat)
    (csl : List (Option LexNode)), k ≤ c →
    ((c :: cs') ∈ wordsInList k csl ↔
      ∃ m, csl.getD (c - k) none = some m ∧ cs' ∈ wordsIn m) := by
  intro k csl
  induction csl generalizing k with
  | nil =>
      intro hkc
      simp [wordsInList]
  | cons s rest ih =>
      intro hkc
      rw [wordsInList_cons]
      rw [List.mem_append]
      by_cases hkeq : k = c
      · subst hkeq
        have h0 : k - k = 0 := by omega
        rw [h0, List.getD_cons_zero]
        constructor
        · intro hh
          rcases hh with h1 | h1
          · cases s with
            | none => simp [wordsInSlot] at h1
            | some m =>
                simp only [wordsInSlot, List.mem_map] at h1
                obtain ⟨t2, hmem, ht2⟩ := h1
                refine ⟨m, rfl, ?_⟩
                have : t2 = cs' := by
                  injection ht2 with hh1 hh2
                rw [← this]
                exact hmem
          · obtain ⟨c2, t2, heq, hge⟩ := wordsInList_head_ge (k + 1) rest _ h1
            injection heq with hh1 hh2
            omega
        · intro ⟨m, hm, hmem⟩
          left
          rw [hm]
          simp only [wordsInSlot, List.mem_map]
          exact ⟨cs', hmem, rfl⟩
      · have hklt : k < c := by omega
        have hsub : c - k = (c - (k + 1)) + 1 := by omega
        rw [hsub, List.getD_cons_succ]
        constructor
        · intro hh
          rcases hh with h1 | h1
          · cases s with
            | none => simp [wordsInSlot] at h1
            | some m =>
                simp only [wordsInSlot, List.mem_map] at h1
                obtain ⟨t2, _, ht2⟩ := h1
                injection ht2 with hh1 hh2
                omega
          · exact (ih (k + 1) (by omega)).mp h1
        · intro hh
          right
          exact (ih (k + 1) (by omega)).mpr hh

theorem mem_wordsIn (t : List Nat) : ∀ (n : LexNode), lowerWord t = true →
    (t ∈ wordsIn n ↔ membW (some n) t = true) := by
  induction t with
  | nil =>
      intro n _
      rw [wordsIn_eq, List.mem_append]
      constructor
      · intro hh
        rcases hh with h1 | h1
        · cases hw : n.is_word
          · rw [hw] at h1; simp at h1
          · simp [membW, hw]
        · exact absurd rfl (wordsInList_ne_nil 97 n.children [] h1)
      · intro hh
        left
        simp only [membW] at hh
        rw [hh]
        simp
  | cons c cs' ih =>
      intro n hl
      simp only [lowerWord, List.all_cons, Bool.and_eq_true] at hl
      have hc : 97 ≤ c := by
        have := hl.1
        simp only [isLowerAlpha, decide_eq_true_eq] at this
        omega
      rw [wordsIn_eq, List.mem_append]
      rw [membW_cons]
      constructor
      · intro hh
        rcases hh with h1 | h1
        · cases hw : n.is_word
          · rw [hw] at h1; simp at h1
          · rw [hw] at h1; simp at h1
        · obtain ⟨m, hm, hmem⟩ := (mem_wordsInList c cs' 97 n.children hc).mp h1
          have : n.getChild (c - 97) = some m := hm
          rw [this]
          exact (ih m (by simp only [lowerWord]; exact hl.2)).mp hmem
      · intro hh
        right
        cases hg : n.getChild (c - 97) with
        | none => rw [hg] at hh; rw [membW_none] at hh; simp at hh
        | some m =>
            rw [hg] at hh
            refine (mem_wordsInList c cs' 97 n.children hc).mpr ⟨m, hg, ?_⟩
            exact (ih m (by simp only [lowerWord]; exact hl.2)).mpr hh

mutual
theorem wordsIn_nodup (n : LexNode) : (wordsIn n).Nodup := by
  cases n with
  | mk w cs =>
      rw [wordsIn_eq]
      apply List.Nodup.append
      · cases w <;> simp
      · exact wordsInList_nodup 97 cs
      · intro t ht1 ht2
        have hne := wordsInList_ne_nil 97 _ t (by simpa using ht2)
        cases hww : w
        · rw [hww] at ht1; simp at ht1
        · rw [hww] at ht1
          simp at ht1
          exact hne ht1
theorem wordsInList_nodup (k : Nat) (cs : List (Option LexNode)) :
    (wordsInList k cs).Nodup := by
  cases cs with
  | nil => exact List.nodup_nil
  | cons c rest =>
      rw [wordsInList_cons]
      apply List.Nodup.append
      · cases c with
        | none => exact List.nodup_nil
        | some m =>
            simp only [wordsInSlot]
            apply List.Nodup.map
            · intro a b hab
              injection hab
            · exact wordsIn_nodup m
      · exact wordsInList_nodup (k + 1) rest
      · intro t ht1 ht2
        obtain ⟨c2, t2, heq, hge⟩ := wordsInList_head_ge (k + 1) rest t ht2
        cases c with
        | none => simp [wordsInSlot] at ht1
        | some m =>
            simp only [wordsInSlot, List.mem_map] at ht1
            obtain ⟨t3, _, ht3⟩ := ht1
            rw [← ht3] at heq
            injection heq with hh1 hh2
            omega
end

theorem countP_wordsInSlot_ne (c k : Nat) (hne : k ≠ c) (cs' : List Nat)
    (s : Option LexNode) :
    (wordsInSlot k s).countP (fun w => decide ((c :: cs') <+: w)) = 0 := by
  cases s with
  | none => rfl
  | some m =>
      simp only [wordsInSlot]
      rw [List.countP_map]
      apply List.countP_eq_zero.mpr
      intro t _
      simp only [Function.comp_apply, decide_eq_true_eq]
      intro hh
      exact hne ((List.cons_prefix_cons.mp hh).1).symm

theorem countP_wordsInList (c : Nat) (cs' : List Nat) : ∀ (k : Nat)
    (csl : List (Option LexNode)), k ≤ c →
    (wordsInList k csl).countP (fun w => decide ((c :: cs') <+: w)) =
      (match csl.getD (c - k) none with
       | none => 0
       | some m => (wordsIn m).countP (fun t => decide (cs' <+: t))) := by
  intro k csl
  induction csl generalizing k with
  | nil =>
      intro hkc
      simp [wordsInList]
  | cons s rest ih =>
      intro hkc
      rw [wordsInList_cons, List.countP_append]
      by_cases hkeq : k = c
      · subst hkeq
        have h0 : k - k = 0 := by omega
        rw [h0, List.getD_cons_zero]
        have hrest : (wordsInList (k + 1) rest).countP
            (fun w => decide ((k :: cs') <+: w)) = 0 := by
          apply List.countP_eq_zero.mpr
          intro t ht
          obtain ⟨c2, t2, heq, hge⟩ := wordsInList_head_ge (k + 1) rest t ht
          simp only [decide_eq_true_eq]
          intro hh
          rw [heq] at hh
          have := (List.cons_prefix_cons.mp hh).1
          omega
        rw [hrest]
        cases s with
        | none => simp [wordsInSlot]
        | some m =>
            simp only [wordsInSlot]
            rw [List.countP_map]
            have : ((fun w => decide ((k :: cs') <+: w)) ∘ (fun t => k :: t)) =
                (fun t => decide (cs' <+: t)) := by
              funext t
              simp only [Function.comp_apply]
              apply decide_eq_decide.mpr
              exact ⟨fun hh => (List.cons_prefix_cons.mp hh).2,
                fun hh => List.cons_prefix_cons.mpr ⟨rfl, hh⟩⟩
            rw [this]
            simp
      · have hsub : c - k = (c - (k + 1)) + 1 := by omega
        rw [hsub, List.getD_cons_succ]
        rw [countP_wordsInSlot_ne c k hkeq cs' s]
        rw [ih (k + 1) (by omega)]
        omega

theorem countP_wordsIn_node (p : List Nat) : ∀ (n : LexNode), lowerWord p = true →
    nodeWF n = true →
    (wordsIn n).countP (fun t => decide (p <+: t)) =
      countWordsSlot (walkTot (some n) p) := by
  induction p with
  | nil =>
      intro n _ _
      have : (wordsIn n).countP (fun t => decide (([] : List Nat) <+: t)) =
          (wordsIn n).length := by
        apply List.countP_eq_length.mpr
        intro t _
        simp [List.nil_prefix]
      rw [this, wordsIn_length n]
      rfl
  | cons c cs' ih =>
      intro n hp hWF
      simp only [lowerWord, List.all_cons, Bool.and_eq_true] at hp
      have hc : 97 ≤ c := by
        have := hp.1
        simp only [isLowerAlpha, decide_eq_true_eq] at this
        omega
      rw [wordsIn_eq, List.countP_append]
      have hhead : ((if n.is_word then [[]] else []) : List (List Nat)).countP
          (fun t => decide ((c :: cs') <+: t)) = 0 := by
        cases n.is_word <;> simp
      rw [hhead]
      rw [countP_wordsInList c cs' 97 n.children hc]
      rw [walkTot_cons]
      cases hg : n.getChild (c - 97) with
      | none =>
          have : n.children.getD (c - 97) none = none := hg
          rw [this, walkTot_none]
          rfl
      | some m =>
          have : n.children.getD (c - 97) none = some m := hg
          rw [this]
          simp only [Nat.zero_add]
          exact ih m (by simp only [lowerWord]; exact hp.2)
            (nodeWF_getChild n hWF _ m hg)

/- Guards passed by a successful operation imply lower-case letters. -/

theorem charIdx_in_range_lower (c : Nat) (h : 0 ≤ charIdx c ∧ charIdx c < 26) :
    isLowerAlpha c = true := by
  simp only [charIdx] at h
  simp only [isLowerAlpha, decide_eq_true_eq]
  omega

theorem add_at_some_lower (cs : List Nat) : ∀ (n : LexNode) (n' : LexNode),
    add_at n cs = some n' → lowerWord cs = true := by
  induction cs with
  | nil => intro n n' _; rfl
  | cons c rest ih =>
      intro n n' ha
      simp only [add_at] at ha
      split at ha
      · rename_i hguard
        cases hx : add_at (match n.getChild (charIdx c).toNat with
            | none => create_node
            | some m => m) rest with
        | none => rw [hx] at ha; simp at ha
        | some nx' =>
            rw [hx] at ha
            simp only [lowerWord, List.all_cons, Bool.and_eq_true]
            exact ⟨charIdx_in_range_lower c hguard, ih _ _ hx⟩
      · simp at ha

theorem remove_core_removed_lower (w : List Nat) : ∀ (slot : Option LexNode)
    (s' : Option LexNode) (p : Bool),
    remove_core slot w = some (.removed s' p) → lowerWord w = true := by
  induction w with
  | nil => intro slot s' p h; simp [remove_core] at h
  | cons c cs ih =>
      intro slot s' p h
      cases cs with
      | nil =>
          cases slot with
          | none => simp [remove_core] at h
          | some n =>
              simp only [remove_core] at h
              split at h
              · rename_i hguard
                simp only [lowerWord, List.all_cons, List.all_nil, Bool.and_true]
                exact charIdx_in_range_lower c hguard
              · simp at h
      | cons c2 cs2 =>
          cases slot with
          | none => simp [remove_core] at h
          | some n =>
              simp only [remove_core] at h
              split at h
              · rename_i hguard
                cases hrec : remove_core (n.getChild (charIdx c).toNat) (c2 :: cs2) with
                | none => rw [hrec] at h; simp at h
                | some res =>
                    rw [hrec] at h
                    cases res with
                    | notFound => simp at h
                    | removed s2 p2 =>
                        simp only [lowerWord, List.all_cons, Bool.and_eq_true]
                        refine ⟨charIdx_in_range_lower c hguard, ?_⟩
                        have := ih _ _ _ hrec
                        simpa [lowerWord] using this
              · simp at h

theorem remove_prefix_at_false (p : List Nat) : ∀ (slot s' : Option LexNode) (d : Nat),
    remove_prefix_at slot p = some (false, s', d) → s' = slot ∧ d = 0 := by
  intro slot s' d h
  cases p with
  | nil =>
      cases slot with
      | none => simp [remove_prefix_at] at h; exact ⟨h.1.symm, h.2.symm⟩
      | some n => simp [remove_prefix_at] at h
  | cons c cs =>
      cases slot with
      | none => simp [remove_prefix_at] at h; exact ⟨h.1.symm, h.2.symm⟩
      | some n =>
          simp only [remove_prefix_at] at h
          split at h
          · cases hrec : remove_prefix_at (n.getChild (charIdx c).toNat) cs with
            | none => rw [hrec] at h; simp at h
            | some res =>
                rw [hrec] at h
                obtain ⟨b2, s2, d2⟩ := res
                cases b2 with
                | false => simp at h; exact ⟨h.1.symm, h.2.symm⟩
                | true => simp at h
          · simp at h

theorem remove_prefix_at_true_lower (p : List Nat) : ∀ (slot s' : Option LexNode) (d : Nat),
    remove_prefix_at slot p = some (true, s', d) → lowerWord p = true := by
  induction p with
  | nil => intro _ _ _ _; rfl
  | cons c cs ih =>
      intro slot s' d h
      cases slot with
      | none => simp [remove_prefix_at] at h
      | some n =>
          simp only [remove_prefix_at] at h
          split at h
          · rename_i hguard
            cases hrec : remove_prefix_at (n.getChild (charIdx c).toNat) cs with
            | none => rw [hrec] at h; simp at h
            | some res =>
                rw [hrec] at h
                obtain ⟨b2, s2, d2⟩ := res
                cases b2 with
                | false => simp at h
                | true =>
                    simp only [lowerWord, List.all_cons, Bool.and_eq_true]
                    refine ⟨charIdx_in_range_lower c hguard, ?_⟩
                    have := ih _ _ _ hrec
                    simpa [lowerWord] using this
          · simp at h

theorem remove_prefix_at_is_word (p : List Nat) (slot : Option LexNode) (b : Bool)
    (s' : Option LexNode) (d : Nat) (n0 m : LexNode)
    (h : remove_prefix_at slot p = some (b, s', d)) (hslot : slot = some n0)
    (hs' : s' = some m) : m.is_word = n0.is_word := by
  subst hslot
  cases p with
  | nil =>
      rw [remove_prefix_at_some_nil] at h
      simp only [Option.some_inj, Prod.mk.injEq] at h
      rw [← h.2.1] at hs'
      simp at hs'
  | cons c cs =>
      simp only [remove_prefix_at] at h
      split at h
      · cases hrec : remove_prefix_at (n0.getChild (charIdx c).toNat) cs with
        | none => rw [hrec] at h; simp at h
        | some res =>
            rw [hrec] at h
            obtain ⟨b2, s2, d2⟩ := res
            cases b2 with
            | false =>
                simp only [Option.some_inj, Prod.mk.injEq] at h
                rw [← h.2.1] at hs'
                simp only [Option.some_inj] at hs'
                rw [← hs']
            | true =>
                simp only [Option.some_inj, Prod.mk.injEq] at h
                rw [← h.2.1] at hs'
                simp only [Option.some_inj] at hs'
                rw [← hs']
                rfl
      · simp at h

/- Lexicon-level operation lemmas. -/

theorem lexWF_eq_slotWF (lex : CLexicon) : lexWF lex = slotWF lex.root := by
  cases h : lex.root <;> simp [lexWF, slotWF, h]

theorem any_isSome_of_getChild (n : LexNode) (i : Nat) (m : LexNode)
    (hg : n.getChild i = some m) : n.children.any (fun c => c.isSome) = true := by
  simp only [List.any_eq_true]
  exact ⟨some m, getD_some_mem n.children i m hg, rfl⟩

theorem clexicon_eta (lex : CLexicon) : CLexicon.mk lex.root lex.wordcount = lex := by
  cases lex; rfl

theorem lowerWord_alpha_orig (w : List Nat) (h : lowerWord (w.map toLowerC) = true) :
    alphaWord w = true := by
  simp only [lowerWord, List.all_eq_true, List.mem_map] at h
  simp only [alphaWord, List.all_eq_true]
  intro c hc
  have := h (toLowerC c) ⟨c, hc, rfl⟩
  simp only [isLowerAlpha, decide_eq_true_eq, toLowerC] at this
  simp only [isAlpha, decide_eq_true_eq]
  split at this <;> omega

theorem clex_add_none (lex : CLexicon) (w : List Nat) (hroot : lex.root = none) :
    clex_add lex w = none := by
  simp [clex_add, clex_simple_add, hroot]

theorem clex_add_spec (lex : CLexicon) (w : List Nat) (r : LexNode)
    (hroot : lex.root = some r) (hWF : nodeWF r = true) (hw : alphaWord w = true) :
    ∃ r', clex_add lex w = some { root := some r', wordcount := lex.wordcount + 1 } ∧
      nodeWF r' = true ∧
      countWords r' = countWords r +
        (if membW (some r) (w.map toLowerC) = true then 0 else 1) ∧
      (∀ ds, lowerWord ds = true → membW (some r') ds =
        (membW (some r) ds || decide (w.map toLowerC = ds))) ∧
      (noDeadList r.children = true → noDead r' = true) ∧
      (w ≠ [] → r'.is_word = r.is_word) := by
  have hl := lowerWord_map_toLowerC w hw
  obtain ⟨r', hr'⟩ := add_at_total r _ hl
  refine ⟨r', ?_, add_at_WF r _ r' hWF hl hr', countWords_add_at r _ r' hWF hl hr',
    fun ds hds => membW_add_at r _ ds r' hWF hl hds hr',
    fun hnd => noDead_add_at r _ r' hWF hl hnd hr', ?_⟩
  · simp [clex_add, clex_simple_add, hroot, hr']
  · intro hne
    cases w with
    | nil => exact absurd rfl hne
    | cons c rest =>
        simp only [List.map_cons] at hr'
        apply add_at_is_word r (toLowerC c) _ r' ?_ hr'
        simp only [lowerWord, List.map_cons, List.all_cons, Bool.and_eq_true] at hl
        exact hl.1

theorem clex_remove_spec (lex : CLexicon) (w : List Nat)
    (hl : lowerWord (w.map toLowerC) = true) (hne : w ≠ [])
    (hWF : lexWF lex = true) :
    (clex_remove lex w = none ↔
      reachSlot lex.root ((w.map toLowerC).dropLast) = some none) ∧
    (∀ lexr, clex_remove lex w = some (false, lexr) →
      lexr = lex ∧ walkTot lex.root (w.map toLowerC) = none) ∧
    (∀ lexr, clex_remove lex w = some (true, lexr) →
      ∃ wn, walkTot lex.root (w.map toLowerC) = some wn ∧
        lexr.wordcount = lex.wordcount - 1 ∧
        lexWF lexr = true ∧
        countWordsSlot lexr.root + (if wn.is_word then 1 else 0) =
          countWordsSlot lex.root ∧
        (∀ r r', lex.root = some r → lexr.root = some r' → r'.is_word = r.is_word) ∧
        (rootChildrenI1 lex = true → rootChildrenI1 lexr = true)) := by
  have hmapne : w.map toLowerC ≠ [] := by
    cases w with
    | nil => exact absurd rfl hne
    | cons c rest => simp
  obtain ⟨cl, csl, hwl⟩ : ∃ cl csl, w.map toLowerC = cl :: csl := by
    cases hml : w.map toLowerC with
    | nil => exact absurd hml hmapne
    | cons cl csl => exact ⟨cl, csl, rfl⟩
  have hspec := remove_core_spec (w.map toLowerC) lex.root hl hmapne
    (by rw [← lexWF_eq_slotWF]; exact hWF)
  have hclex : clex_remove lex w =
      (match remove_core lex.root (w.map toLowerC) with
       | none => none
       | some .notFound => some (false, lex)
       | some (.removed root' pruned) =>
           if pruned then
             some (true, CLexicon.mk (scrubSlot root').1
               (lex.wordcount - 1 - ((scrubSlot root').2 : Int)))
           else
             some (true, CLexicon.mk root' (lex.wordcount - 1))) := by
    simp only [clex_remove]
    rw [hwl]
  cases hrc : remove_core lex.root (w.map toLowerC) with
  | none =>
      rw [hrc] at hclex
      refine ⟨?_, ?_, ?_⟩
      · rw [hclex]
        simp only [true_iff]
        exact (hspec.1).mp hrc
      · intro lexr hfalse; rw [hclex] at hfalse; simp at hfalse
      · intro lexr htrue; rw [hclex] at htrue; simp at htrue
  | some res =>
      cases res with
      | notFound =>
          rw [hrc] at hclex
          refine ⟨?_, ?_, ?_⟩
          · rw [hclex]
            constructor
            · intro hh; simp at hh
            · intro hh
              have := (hspec.1).mpr hh
              rw [hrc] at this; simp at this
          · intro lexr hfalse
            rw [hclex] at hfalse
            simp only [Option.some_inj, Prod.mk.injEq] at hfalse
            exact ⟨hfalse.2.symm, hspec.2.1 hrc⟩
          · intro lexr htrue; rw [hclex] at htrue; simp at htrue
      | removed root' pruned =>
          rw [hrc] at hclex
          obtain ⟨n0, wn, m, hn0, hm, hwalk, hword, hmWF, hcount, hmemb, hnd⟩ :=
            hspec.2.2 root' pruned hrc
          have hiff : ¬ (clex_remove lex w = none) := by
            rw [hclex]
            cases pruned <;> simp
          refine ⟨?_, ?_, ?_⟩
          · constructor
            · intro hh; exact absurd hh hiff
            · intro hh
              have := (hspec.1).mpr hh
              rw [hrc] at this; simp at this
          · intro lexr hfalse
            rw [hclex] at hfalse
            cases pruned <;> simp at hfalse
          · intro lexr htrue
            rw [hclex] at htrue
            cases pruned with
            | false =>
                simp only [if_neg Bool.false_ne_true, Option.some_inj,
                  Prod.mk.injEq, true_and] at htrue
                refine ⟨wn, hwalk, ?_, ?_, ?_, ?_, ?_⟩
                · rw [← htrue]
                · rw [← htrue]
                  rw [lexWF_eq_slotWF]
                  rw [hm]
                  simpa [slotWF] using hmWF
                · rw [← htrue, hn0]
                  rw [hm]
                  simpa [countWordsSlot] using hcount
                · intro r r' hr hr'
                  rw [hn0] at hr
                  rw [← htrue] at hr'
                  rw [hm] at hr'
                  simp only [Option.some_inj] at hr hr'
                  rw [← hr, ← hr']
                  exact hword
                · intro hI1
                  rw [← htrue]
                  simp only [rootChildrenI1, hm]
                  have hnoDead : noDead m = true := by
                    apply hnd rfl
                    simp only [rootChildrenI1, hn0] at hI1
                    rw [noDead_eq, Bool.and_eq_true]
                    refine ⟨?_, hI1⟩
                    rw [hwl] at hwalk
                    rw [hn0] at hwalk
                    rw [walkTot_cons] at hwalk
                    cases hg : n0.getChild (cl - 97) with
                    | none => rw [hg, walkTot_none] at hwalk; simp at hwalk
                    | some mc =>
                        rw [any_isSome_of_getChild n0 _ mc hg]
                        simp
                  rw [noDead_eq, Bool.and_eq_true] at hnoDead
                  exact hnoDead.2
            | true =>
                have h3 : (if (true : Bool) = true then
                    some (true, CLexicon.mk (scrubSlot root').1
                      (lex.wordcount - 1 - ((scrubSlot root').2 : Int)))
                  else some (true, CLexicon.mk root' (lex.wordcount - 1))) =
                    some (true, lexr) := htrue
                rw [if_pos rfl] at h3
                simp only [Option.some_inj, Prod.mk.injEq, true_and] at h3
                have htrue2 : lexr = CLexicon.mk (scrubSlot root').1
                    (lex.wordcount - 1 - ((scrubSlot root').2 : Int)) := h3.symm
                have hsc := scrubSlot_count root'
                have hsc0 : (scrubSlot root').2 = 0 := hsc.1
                refine ⟨wn, hwalk, ?_, ?_, ?_, ?_, ?_⟩
                · rw [htrue2]
                  simp [hsc0]
                · rw [htrue2]
                  rw [lexWF_eq_slotWF]
                  apply scrubSlot_WF
                  rw [hm]
                  simpa [slotWF] using hmWF
                · rw [htrue2, hn0]
                  simp only []
                  rw [hsc.2, hm]
                  simpa [countWordsSlot] using hcount
                · intro r r' hr hr'
                  rw [hn0] at hr
                  rw [htrue2] at hr'
                  simp only [Option.some_inj] at hr
                  have : (scrubSlot root').1 = some r' := hr'
                  rw [hm] at this
                  have hw2 := scrubNode_word m r' (by simpa [scrubSlot] using this)
                  rw [hw2, hword, ← hr]
                · intro hI1
                  rw [htrue2]
                  simp only [rootChildrenI1]
                  have := scrubSlot_noDead root'
                  cases hsr : (scrubSlot root').1 with
                  | none => simp
                  | some rr =>
                      rw [hsr] at this
                      simp only [noDeadSlot] at this
                      rw [noDead_eq, Bool.and_eq_true] at this
                      exact this.2

theorem clex_remove_prefix_spec (lex : CLexicon) (p : List Nat)
    (hl : lowerWord (p.map toLowerC) = true) (hWF : lexWF lex = true) :
    ∃ b lexr, clex_remove_prefix_fn lex p = some (b, lexr) ∧
      b = (walkTot lex.root (p.map toLowerC)).isSome ∧
      (b = false → lexr = lex) ∧
      lexWF lexr = true ∧
      countWordsSlot lexr.root + countWordsSlot (walkTot lex.root (p.map toLowerC)) =
        countWordsSlot lex.root ∧
      lexr.wordcount = lex.wordcount -
        ((countWordsSlot (walkTot lex.root (p.map toLowerC))) : Int) ∧
      (∀ ds, lowerWord ds = true → membW lexr.root ds =
        (membW lex.root ds && !(decide ((p.map toLowerC) <+: ds)))) ∧
      (∀ r r', lex.root = some r → lexr.root = some r' → r'.is_word = r.is_word) := by
  obtain ⟨b, s', d, heq, hb, hfls, hWF', hcount, hd, hmemb⟩ :=
    remove_prefix_at_spec (p.map toLowerC) lex.root hl
      (by rw [← lexWF_eq_slotWF]; exact hWF)
  have hclex : clex_remove_prefix_fn lex p =
      some (b, CLexicon.mk s' (lex.wordcount - (d : Int))) := by
    simp only [clex_remove_prefix_fn]
    rw [heq]
  refine ⟨b, CLexicon.mk s' (lex.wordcount - (d : Int)), hclex, hb, ?_, ?_, ?_, ?_, ?_, ?_⟩
  · intro hbf
    obtain ⟨hs, hd0⟩ := hfls hbf
    rw [hs, hd0]
    simp only [Nat.cast_zero, sub_zero]
  · rw [lexWF_eq_slotWF]
    exact hWF'
  · rw [← hd]
    exact hcount
  · rw [hd]
  · exact hmemb
  · intro r r' hr hr'
    exact remove_prefix_at_is_word (p.map toLowerC) lex.root b s' d r r' heq hr hr'

/- Sequence lemmas. -/

theorem runOps_inv_cond (P : CLexicon → Prop) (Q : Op → Prop)
    (hstep : ∀ lex o lex', Q o → P lex → applyOp lex o = some lex' → P lex') :
    ∀ (ops : List Op) (lex lex' : CLexicon), (∀ o ∈ ops, Q o) → P lex →
      runOps lex ops = some lex' → P lex' := by
  intro ops
  induction ops with
  | nil =>
      intro lex lex' _ hP h
      simp only [runOps, Option.some_inj] at h
      rw [← h]; exact hP
  | cons o os ih =>
      intro lex lex' hQ hP h
      simp only [runOps] at h
      cases ha : applyOp lex o with
      | none => rw [ha] at h; simp at h
      | some l1 =>
          rw [ha] at h
          exact ih l1 lex' (fun o2 ho2 => hQ o2 (List.mem_cons_of_mem o ho2))
            (hstep lex o l1 (hQ o (List.mem_cons_self o os)) hP ha) h

theorem clex_add_inv (lex : CLexicon) (w : List Nat) (lex' : CLexicon)
    (h : clex_add lex w = some lex') :
    ∃ r r', lex.root = some r ∧ add_at r (w.map toLowerC) = some r' ∧
      lex' = CLexicon.mk (some r') (lex.wordcount + 1) ∧
      lowerWord (w.map toLowerC) = true := by
  cases hroot : lex.root with
  | none => rw [clex_add_none lex w hroot] at h; simp at h
  | some r =>
      simp only [clex_add, clex_simple_add, hroot] at h
      cases hx : add_at r (w.map toLowerC) with
      | none => rw [hx] at h; simp at h
      | some r' =>
          rw [hx] at h
          simp only [Option.some_inj] at h
          exact ⟨r, r', rfl, hx, h.symm, add_at_some_lower _ r r' hx⟩

theorem clex_remove_inv (lex : CLexicon) (w : List Nat) (b : Bool) (lexr : CLexicon)
    (h : clex_remove lex w = some (b, lexr)) :
    w ≠ [] ∧
    (b = false → lexr = lex) ∧
    (b = true → lowerWord (w.map toLowerC) = true) := by
  have hne : w ≠ [] := by
    intro hnil
    rw [hnil] at h
    simp [clex_remove] at h
  refine ⟨hne, ?_, ?_⟩
  · intro hb
    subst hb
    obtain ⟨cl, csl, hwl⟩ : ∃ cl csl, w.map toLowerC = cl :: csl := by
      cases hml : w.map toLowerC with
      | nil =>
          cases w with
          | nil => exact absurd rfl hne
          | cons a as => simp at hml
      | cons cl csl => exact ⟨cl, csl, rfl⟩
    simp only [clex_remove] at h
    rw [hwl] at h
    dsimp only at h
    cases hrc : remove_core lex.root (cl :: csl) with
    | none => rw [hrc] at h; simp at h
    | some res =>
        rw [hrc] at h
        cases res with
        | notFound =>
            simp only [Option.some_inj, Prod.mk.injEq] at h
            exact h.2.symm
        | removed root' pruned =>
            cases pruned <;> simp at h
  · intro hb
    subst hb
    obtain ⟨cl, csl, hwl⟩ : ∃ cl csl, w.map toLowerC = cl :: csl := by
      cases hml : w.map toLowerC with
      | nil =>
          cases w with
          | nil => exact absurd rfl hne
          | cons a as => simp at hml
      | cons cl csl => exact ⟨cl, csl, rfl⟩
    simp only [clex_remove] at h
    rw [hwl] at h
    dsimp only at h
    cases hrc : remove_core lex.root (cl :: csl) with
    | none => rw [hrc] at h; simp at h
    | some res =>
        rw [hrc] at h
        cases res with
        | notFound => simp at h
        | removed root' pruned =>
            rw [hwl]
            exact remove_core_removed_lower (cl :: csl) lex.root root' pruned hrc

theorem clex_remove_prefix_inv (lex : CLexicon) (p : List Nat) (b : Bool)
    (lexr : CLexicon) (h : clex_remove_prefix_fn lex p = some (b, lexr)) :
    (b = false → lexr = lex) ∧
    (b = true → lowerWord (p.map toLowerC) = true) := by
  simp only [clex_remove_prefix_fn] at h
  cases hrp : remove_prefix_at lex.root (p.map toLowerC) with
  | none => rw [hrp] at h; simp at h
  | some res =>
      rw [hrp] at h
      obtain ⟨b2, s', d⟩ := res
      simp only [Option.some_inj, Prod.mk.injEq] at h
      constructor
      · intro hb
        rw [← h.2]
        rw [h.1, hb] at hrp
        obtain ⟨hs, hd0⟩ := remove_prefix_at_false (p.map toLowerC) lex.root s' d hrp
        rw [hs, hd0]
        simp only [Nat.cast_zero, sub_zero]
      · intro hb
        rw [h.1, hb] at hrp
        exact remove_prefix_at_true_lower (p.map toLowerC) lex.root s' d hrp

theorem applyOp_WF (lex : CLexicon) (o : Op) (lex' : CLexicon)
    (hWF : lexWF lex = true) (h : applyOp lex o = some lex') : lexWF lex' = true := by
  cases o with
  | add w =>
      simp only [applyOp] at h
      obtain ⟨r, r', hroot, hx, hlex', hl⟩ := clex_add_inv lex w lex' h
      rw [hlex', lexWF_eq_slotWF]
      have hr : nodeWF r = true := by
        rw [lexWF_eq_slotWF, hroot] at hWF
        simpa [slotWF] using hWF
      simpa [slotWF] using add_at_WF r _ r' hr hl hx
  | remove w =>
      simp only [applyOp] at h
      cases hrm : clex_remove lex w with
      | none => rw [hrm] at h; simp at h
      | some res =>
          rw [hrm] at h
          obtain ⟨b, lexr⟩ := res
          simp only [Option.map_some', Option.some_inj] at h
          obtain ⟨hne, hbf, hbt⟩ := clex_remove_inv lex w b lexr hrm
          cases b with
          | false => rw [← h, hbf rfl]; exact hWF
          | true =>
              have hspec := clex_remove_spec lex w (hbt rfl) hne hWF
              obtain ⟨wn, _, _, hWF', _⟩ := hspec.2.2 lexr hrm
              rw [← h]
              exact hWF'
  | rmPre p =>
      simp only [applyOp] at h
      cases hrm : clex_remove_prefix_fn lex p with
      | none => rw [hrm] at h; simp at h
      | some res =>
          rw [hrm] at h
          obtain ⟨b, lexr⟩ := res
          simp only [Option.map_some', Option.some_inj] at h
          obtain ⟨hbf, hbt⟩ := clex_remove_prefix_inv lex p b lexr hrm
          cases b with
          | false => rw [← h, hbf rfl]; exact hWF
          | true =>
              obtain ⟨b2, lexr2, heq2, _, _, hWF', _⟩ :=
                clex_remove_prefix_spec lex p (hbt rfl) hWF
              rw [heq2] at hrm
              simp only [Option.some_inj, Prod.mk.injEq] at hrm
              rw [← h, ← hrm.2]
              exact hWF'

/- Last auxiliary lemmas. -/

theorem contains_walk_some_some_lower (wl : List Nat) : ∀ (slot : Option LexNode)
    (n : LexNode), contains_walk slot wl = some (some n) → lowerWord wl = true := by
  induction wl with
  | nil => intro slot n _; rfl
  | cons c cs ih =>
      intro slot n h
      cases slot with
      | none =>
          simp only [contains_walk, Option.some_inj] at h
          simp at h
      | some m =>
          simp only [contains_walk] at h
          split at h
          · rename_i hguard
            simp only [lowerWord, List.all_cons, Bool.and_eq_true]
            exact ⟨charIdx_in_range_lower c hguard, ih _ n h⟩
          · simp at h

theorem clex_contains_true_lower (lex : CLexicon) (w : List Nat)
    (h : clex_contains lex w = some true) : lowerWord (w.map toLowerC) = true := by
  simp only [clex_contains, clex_contains_helper] at h
  cases hw : contains_walk lex.root (w.map toLowerC) with
  | none => rw [hw] at h; simp at h
  | some s =>
      cases s with
      | none => rw [hw] at h; simp at h
      | some n => exact contains_walk_some_some_lower _ lex.root n hw

theorem clex_contains_root_none (lex : CLexicon) (w : List Nat)
    (hroot : lex.root = none) : clex_contains lex w = some false := by
  simp only [clex_contains, clex_contains_helper, hroot]
  cases hml : w.map toLowerC with
  | nil => rfl
  | cons c cs => rfl

theorem wordsInList_head_lt (k : Nat) (csl : List (Option LexNode)) (c : Nat)
    (t : List Nat) (ht : (c :: t) ∈ wordsInList k csl) : c < k + csl.length := by
  induction csl generalizing k with
  | nil => simp [wordsInList] at ht
  | cons s rest ih =>
      rw [wordsInList_cons] at ht
      rcases List.mem_append.mp ht with h1 | h1
      · cases s with
        | none => simp [wordsInSlot] at h1
        | some m =>
            simp only [wordsInSlot, List.mem_map] at h1
            obtain ⟨t2, _, ht2⟩ := h1
            injection ht2 with hh1 hh2
            simp only [List.length_cons]
            omega
      · have := ih (k + 1) h1
        simp only [List.length_cons]
        omega

theorem wordsIn_entries_lower (t : List Nat) : ∀ (n : LexNode), nodeWF n = true →
    t ∈ wordsIn n → lowerWord t = true := by
  induction t with
  | nil => intro n _ _; rfl
  | cons c cs ih =>
      intro n hWF ht
      rw [wordsIn_eq, List.mem_append] at ht
      rcases ht with h1 | h1
      · cases hw : n.is_word
        · rw [hw] at h1; simp at h1
        · rw [hw] at h1; simp at h1
      · have hge : 97 ≤ c := by
          obtain ⟨c2, t2, heq, hg⟩ := wordsInList_head_ge 97 n.children _ h1
          injection heq with hh1 hh2
          omega
        have hlt : c < 97 + n.children.length :=
          wordsInList_head_lt 97 n.children c cs h1
        rw [nodeWF_length n hWF] at hlt
        obtain ⟨m, hm, hmem⟩ := (mem_wordsInList c cs 97 n.children hge).mp h1
        have hmWF : nodeWF m = true := listWF_getD n.children (nodeWF_listWF n hWF) _ m hm
        simp only [lowerWord, List.all_cons, Bool.and_eq_true]
        refine ⟨by simp only [isLowerAlpha, decide_eq_true_eq]; omega, ?_⟩
        have := ih m hmWF hmem
        simpa [lowerWord] using this

theorem membersOf_charac (lex : CLexicon) (hWF : lexWF lex = true) (w : List Nat) :
    w ∈ membersOf lex ↔ (lowerWord w = true ∧ clex_contains lex w = some true) := by
  cases hroot : lex.root with
  | none =>
      simp only [membersOf, hroot]
      constructor
      · intro hh; simp at hh
      · intro ⟨_, hc⟩
        rw [clex_contains_root_none lex w hroot] at hc
        simp at hc
  | some r =>
      have hr : nodeWF r = true := by
        rw [lexWF_eq_slotWF, hroot] at hWF
        simpa [slotWF] using hWF
      simp only [membersOf, hroot]
      constructor
      · intro hh
        have hl := wordsIn_entries_lower w r hr hh
        refine ⟨hl, ?_⟩
        rw [clex_contains_lower lex w hl, hroot]
        rw [← (mem_wordsIn w r hl).mp hh]
      · intro ⟨hl, hc⟩
        rw [clex_contains_lower lex w hl, hroot] at hc
        simp only [Option.some_inj] at hc
        exact (mem_wordsIn w r hl).mpr hc

/- Claim theorems. -/

/-- Claim C1 (code bug): the claim says clex_remove returns true iff the word is a
member (final node exists AND is terminal), and that removing a proper structural
prefix of a stored word that is not itself a member returns false and leaves size
unchanged.  The code (and this evaluation of the embedding) does the opposite: on
the set obtained by adding "ab" (codes [97, 98]), the word "a" ([97]) is not a
member (clex_contains gives false), yet clex_remove returns true and decrements
wordcount from 1 to 0, contradicting the claim and the C function's own comment
"Returns false if the word is not a member of the CLexicon". -/
theorem claim_C1_code_eval :
    ((clex_add clex_create [97, 98]).bind fun l1 =>
      (clex_remove l1 [97]).map fun pr =>
        (clex_contains l1 [97], pr.1, pr.2.wordcount)) =
    some (some false, true, 0) := rfl

/-- Claim C4 counterexample: on a freshly created (live, empty) lexicon,
clex_contains_prefix with the empty string returns true, not false as the claim
states: the zero-length traversal leaves the cursor on the non-NULL root and the
helper returns isPrefix = true. -/
theorem claim_C4_counterexample :
    clex_contains_prefix_fn clex_create [] = some true := rfl

/-- Claim C4 amended: clex_contains_prefix on the empty string returns true
exactly when the root pointer is present (which is the case for every freshly
created or cleared lexicon, and fails only after clex_remove_prefix with an empty
prefix or a removal that empties the tree deleted the root). -/
theorem claim_C4_amended (lex : CLexicon) :
    clex_contains_prefix_fn lex [] = some lex.root.isSome := by
  cases h : lex.root with
  | none => simp [clex_contains_prefix_fn, clex_contains_helper, contains_walk, h]
  | some r => simp [clex_contains_prefix_fn, clex_contains_helper, contains_walk, h]

/-- Claim C9 counterexample: clex_remove on the word "ab" (all ASCII letters,
non-empty) applied to a freshly created lexicon faults: the descent loop checks
only the nodes before the last letter, and then dereferences the absent node at
depth 1 without a NULL check.  In the embedding the fault is the `none` result. -/
theorem claim_C9_counterexample : clex_remove clex_create [97, 98] = none := rfl

/-- Claim C9 amended: for ASCII-letter arguments every child-array index is in
0..25 and queries never fault: clex_contains and clex_contains_prefix are total
on every state, clex_remove_prefix is total on every well-formed state, and
clex_add is total whenever the root is present.  clex_remove however is NOT
total under the claimed precondition: for a non-empty letter word it faults
exactly when the walk over all but the last letter stays on present nodes but
ends on an absent one (an unguarded NULL dereference).  The empty word also
faults in clex_remove (the out-of-bounds read word_lower[-1]); there is indeed
no guard for it. -/
theorem claim_C9_amended :
    (∀ lex (w : List Nat), alphaWord w = true →
      (clex_contains lex w).isSome = true ∧
        (clex_contains_prefix_fn lex w).isSome = true) ∧
    (∀ lex (p : List Nat), alphaWord p = true → lexWF lex = true →
      (clex_remove_prefix_fn lex p).isSome = true) ∧
    (∀ lex (w : List Nat) (r : LexNode), alphaWord w = true → lex.root = some r →
      lexWF lex = true → (clex_add lex w).isSome = true) ∧
    (∀ lex (w : List Nat), alphaWord w = true → w ≠ [] → lexWF lex = true →
      (clex_remove lex w = none ↔
        reachSlot lex.root ((w.map toLowerC).dropLast) = some none)) ∧
    (∀ lex, clex_remove lex [] = none) := by
  refine ⟨?_, ?_, ?_, ?_, ?_⟩
  · intro lex w hw
    rw [clex_contains_alpha lex w hw, clex_contains_prefix_alpha lex w hw]
    exact ⟨rfl, rfl⟩
  · intro lex p hp hWF
    obtain ⟨b, lexr, heq, _⟩ :=
      clex_remove_prefix_spec lex p (lowerWord_map_toLowerC p hp) hWF
    rw [heq]
    rfl
  · intro lex w r hw hroot hWF
    have hr : nodeWF r = true := by
      rw [lexWF_eq_slotWF, hroot] at hWF
      simpa [slotWF] using hWF
    obtain ⟨r', heq, _⟩ := clex_add_spec lex w r hroot hr hw
    rw [heq]
    rfl
  · intro lex w hw hne hWF
    exact (clex_remove_spec lex w (lowerWord_map_toLowerC w hw) hne hWF).1
  · intro lex
    rfl

/-- Claim C9 witness: the amended statement applied at concrete inputs: on a
fresh lexicon the letter word "ab" makes clex_remove fault (the reachSlot
characterization holds), and clex_contains is total on "a". -/
theorem claim_C9_witness :
    (clex_remove clex_create [97, 98] = none ↔
      reachSlot clex_create.root ((([97, 98] : List Nat).map toLowerC).dropLast) =
        some none) ∧
    (clex_contains clex_create [97]).isSome = true :=
  ⟨claim_C9_amended.2.2.2.1 clex_create [97, 98] (by decide) (by decide) (by decide),
   (claim_C9_amended.1 clex_create [97] (by decide)).1⟩

/-- Claim C10 counterexample: the claim says clex_remove_prefix with the empty
string always returns true and leaves size() = 0.  After adding "a" twice the
stored wordcount is 2 while only one terminal node exists; the empty-prefix
removal then returns true but size() is 1, not 0. -/
theorem claim_C10_counterexample :
    ((clex_add clex_create [97]).bind fun l1 => (clex_add l1 [97]).bind fun l2 =>
      (clex_remove_prefix_fn l2 []).map fun pr =>
        (pr.1, pr.2.wordcount, pr.2.root.isSome)) = some (true, 1, false) := rfl

/-- Claim C10 amended: clex_remove_prefix with the empty string returns true
exactly when the root is present (false when the root slot is already absent);
when it returns true it frees the whole tree leaving the root slot absent,
decrements size() by the number of terminal nodes that were in the tree (which
is 0 only if the counter was in sync), and afterwards clex_contains returns
false for every word. -/
theorem claim_C10_amended (lex : CLexicon) :
    (lex.root = none → clex_remove_prefix_fn lex [] = some (false, lex)) ∧
    (∀ r, lex.root = some r →
      ∃ lexr, clex_remove_prefix_fn lex [] = some (true, lexr) ∧
        lexr.root = none ∧
        lexr.wordcount = lex.wordcount - (countWords r : Int) ∧
        (∀ w, clex_contains lexr w = some false)) := by
  constructor
  · intro hroot
    simp only [clex_remove_prefix_fn, List.map_nil, hroot, remove_prefix_at_none]
    simp only [Nat.cast_zero, sub_zero, Option.some_inj]
    rw [← hroot, clexicon_eta lex]
  · intro r hroot
    refine ⟨CLexicon.mk none (lex.wordcount - (countWords r : Int)), ?_, rfl, rfl, ?_⟩
    · simp only [clex_remove_prefix_fn, List.map_nil, hroot, remove_prefix_at_some_nil]
    · intro w
      exact clex_contains_root_none _ w rfl

/-- Claim C10 witness: the amended statement applied to a fresh lexicon, whose
root is present: the empty-prefix removal empties it. -/
theorem claim_C10_witness :
    ∃ lexr, clex_remove_prefix_fn clex_create [] = some (true, lexr) ∧
      lexr.root = none ∧
      lexr.wordcount = clex_create.wordcount - (countWords create_node : Int) ∧
      (∀ w, clex_contains lexr w = some false) :=
  (claim_C10_amended clex_create).2 create_node rfl

/-- Claim C5 counterexample: adding the member "a" a second time keeps membership
("a" is already contained) but wordcount rises from 1 to 2, so size() is not
left unchanged as the claim states: clex_simple_add increments the counter
unconditionally. -/
theorem claim_C5_counterexample :
    ((clex_add clex_create [97]).bind fun l1 =>
      (clex_add l1 [97]).map fun l2 =>
        (clex_contains l1 [97], l1.wordcount, l2.wordcount)) =
    some (some true, 1, 2) := rfl

/-- Claim C5 amended: re-adding a word that is already a member leaves the
membership of every letter word unchanged, but size() grows by exactly one
(the counter is incremented unconditionally on every add). -/
theorem claim_C5_amended (lex : CLexicon) (w : List Nat)
    (hWF : lexWF lex = true) (hw : alphaWord w = true)
    (hmem : clex_contains lex w = some true) :
    ∃ lex', clex_add lex w = some lex' ∧
      clex_wordcount lex' = clex_wordcount lex + 1 ∧
      (∀ v, alphaWord v = true → clex_contains lex' v = clex_contains lex v) := by
  rw [clex_contains_alpha lex w hw] at hmem
  simp only [Option.some_inj] at hmem
  cases hroot : lex.root with
  | none => rw [hroot, membW_none] at hmem; simp at hmem
  | some r =>
      rw [hroot] at hmem
      have hr : nodeWF r = true := by
        rw [lexWF_eq_slotWF, hroot] at hWF
        simpa [slotWF] using hWF
      obtain ⟨r', heq, hWF', hcount, hmembW, _, _⟩ := clex_add_spec lex w r hroot hr hw
      refine ⟨_, heq, by simp [clex_wordcount], ?_⟩
      intro v hv
      rw [clex_contains_alpha _ v hv, clex_contains_alpha lex v hv, hroot]
      simp only [Option.some_inj]
      rw [hmembW (v.map toLowerC) (lowerWord_map_toLowerC v hv)]
      by_cases hvw : w.map toLowerC = v.map toLowerC
      · rw [← hvw, hmem]
        simp [hvw]
      · simp [hvw]

/-- Claim C5 witness: the amended statement applied to the one-word lexicon
{"a"} and the member "a". -/
theorem claim_C5_witness :
    ∃ lex', clex_add (CLexicon.mk (some (LexNode.mk false
        ((List.replicate 26 none).set 0 (some (LexNode.mk true
          (List.replicate 26 none)))))) 1) [97] = some lex' ∧
      clex_wordcount lex' = clex_wordcount (CLexicon.mk (some (LexNode.mk false
        ((List.replicate 26 none).set 0 (some (LexNode.mk true
          (List.replicate 26 none)))))) 1) + 1 ∧
      (∀ v, alphaWord v = true → clex_contains lex' v =
        clex_contains (CLexicon.mk (some (LexNode.mk false
          ((List.replicate 26 none).set 0 (some (LexNode.mk true
            (List.replicate 26 none)))))) 1) v) :=
  claim_C5_amended _ [97] (by decide) (by decide) (by decide)

theorem runOps_add_all (ws : List (List Nat)) : ∀ (lex : CLexicon) (r : LexNode),
    lex.root = some r → nodeWF r = true → (∀ w ∈ ws, lowerWord w = true) →
    ∃ lex' r', runOps lex (ws.map Op.add) = some lex' ∧ lex'.root = some r' ∧
      nodeWF r' = true ∧ lex'.wordcount = lex.wordcount + ws.length ∧
      (∀ ds, lowerWord ds = true →
        membW (some r') ds = (membW (some r) ds || decide (ds ∈ ws))) := by
  induction ws with
  | nil =>
      intro lex r hroot hWF _
      refine ⟨lex, r, rfl, hroot, hWF, by simp, ?_⟩
      intro ds _
      simp
  | cons w rest ih =>
      intro lex r hroot hWF hl
      have hw : lowerWord w = true := hl w (List.mem_cons_self w rest)
      obtain ⟨r1, heq, hWF1, _, hmembW, _, _⟩ :=
        clex_add_spec lex w r hroot hWF (alphaWord_of_lower w hw)
      have hstep : runOps lex ((w :: rest).map Op.add) =
          runOps (CLexicon.mk (some r1) (lex.wordcount + 1)) (rest.map Op.add) := by
        simp only [List.map_cons, runOps, applyOp]
        rw [heq]
      obtain ⟨lex', r', hrun, hroot', hWF', hcount, hmemb⟩ :=
        ih (CLexicon.mk (some r1) (lex.wordcount + 1)) r1 rfl hWF1
          (fun v hv => hl v (List.mem_cons_of_mem w hv))
      refine ⟨lex', r', by rw [hstep]; exact hrun, hroot', hWF', ?_, ?_⟩
      · rw [hcount]
        simp only [List.length_cons]
        push_cast
        omega
      · intro ds hds
        rw [hmemb ds hds, hmembW ds hds]
        rw [map_toLowerC_of_lower w hw]
        rw [Bool.or_assoc]
        have : (decide (w = ds) || decide (ds ∈ rest)) = decide (ds ∈ w :: rest) := by
          rw [Bool.or_eq_decide]
          apply decide_eq_decide.mpr
          rw [List.mem_cons]
          constructor
          · intro hh
            rcases hh with hh | hh
            · exact Or.inl hh.symm
            · exact Or.inr hh
          · intro hh
            rcases hh with hh | hh
            · exact Or.inl hh.symm
            · exact Or.inr hh
        rw [this]

/-- Claim C7 (confirmed): inserting each element of a finite list of distinct
non-empty lower-case words exactly once into a freshly created set succeeds,
makes clex_contains return true for every element, and leaves size() equal to
the number of words inserted. -/
theorem claim_C7_roundtrip (ws : List (List Nat))
    (hlower : ∀ w ∈ ws, lowerWord w = true) (hne : ∀ w ∈ ws, w ≠ [])
    (hnodup : ws.Nodup) :
    ∃ lex, runOps clex_create (ws.map Op.add) = some lex ∧
      (∀ w ∈ ws, clex_contains lex w = some true) ∧
      clex_wordcount lex = ws.length := by
  obtain ⟨lex, r', hrun, hroot', hWF', hcount, hmemb⟩ :=
    runOps_add_all ws clex_create create_node rfl nodeWF_create hlower
  refine ⟨lex, hrun, ?_, ?_⟩
  · intro w hw
    rw [clex_contains_lower lex w (hlower w hw), hroot']
    rw [hmemb w (hlower w hw), membW_create]
    simp [hw]
  · simp only [clex_wordcount]
    rw [hcount]
    simp [clex_create]

/-- Claim C7 witness: the round-trip applied to the two distinct words
"a" ([97]) and "bc" ([98, 99]). -/
theorem claim_C7_witness :
    ∃ lex, runOps clex_create ([[97], [98, 99]].map Op.add) = some lex ∧
      (∀ w ∈ [[97], [98, 99]], clex_contains lex w = some true) ∧
      clex_wordcount lex = [[97], [98, 99]].length :=
  claim_C7_roundtrip [[97], [98, 99]] (by decide) (by decide) (by decide)

theorem applyOp_I1_basic (lex : CLexicon) (o : Op) (lex' : CLexicon)
    (hb : Op.basic o = true)
    (hP : lexWF lex = true ∧ rootChildrenI1 lex = true)
    (h : applyOp lex o = some lex') :
    lexWF lex' = true ∧ rootChildrenI1 lex' = true := by
  refine ⟨applyOp_WF lex o lex' hP.1 h, ?_⟩
  cases o with
  | add w =>
      simp only [applyOp] at h
      obtain ⟨r, r', hroot, hx, hlex', hl⟩ := clex_add_inv lex w lex' h
      have hr : nodeWF r = true := by
        rw [lexWF_eq_slotWF, hroot] at hP
        simpa [slotWF] using hP.1
      have hnd : noDeadList r.children = true := by
        have := hP.2
        simp only [rootChildrenI1, hroot] at this
        exact this
      have hnd' := noDead_add_at r _ r' hr hl hnd hx
      rw [hlex']
      simp only [rootChildrenI1]
      rw [noDead_eq, Bool.and_eq_true] at hnd'
      exact hnd'.2
  | remove w =>
      simp only [applyOp] at h
      cases hrm : clex_remove lex w with
      | none => rw [hrm] at h; simp at h
      | some res =>
          rw [hrm] at h
          obtain ⟨b, lexr⟩ := res
          simp only [Option.map_some', Option.some_inj] at h
          obtain ⟨hne, hbf, hbt⟩ := clex_remove_inv lex w b lexr hrm
          cases b with
          | false => rw [← h, hbf rfl]; exact hP.2
          | true =>
              have hspec := clex_remove_spec lex w (hbt rfl) hne hP.1
              obtain ⟨wn, _, _, _, _, _, hI1⟩ := hspec.2.2 lexr hrm
              rw [← h]
              exact hI1 hP.2
  | rmPre p => simp [Op.basic] at hb

/-- Claim C2 counterexample: the sequence add("ab"); removePrefix("ab") leaves
the node for "a" present, non-terminal, and with all 26 child slots absent
(clex_remove_prefix never scrubs the branch above the removed subtree), and on
the fresh set the root itself is already a reachable node with is_word false and
no children, so invariant I1 as claimed is violated. -/
theorem claim_C2_counterexample :
    (runOps clex_create [Op.add [97, 98], Op.rmPre [97, 98]]).map claimI1 =
      some false := rfl

/-- Claim C2 amended: after any finite fault-free sequence of clex_add and
clex_remove operations (no clex_remove_prefix) starting from a freshly created
set, invariant I1 holds for every reachable node other than the root: no
non-root present node has is_word false and all 26 child slots absent.  (The
root of the empty set is itself non-terminal and childless, so the root must be
exempted; and clex_remove_prefix breaks the invariant, as the counterexample
shows, because it does not scrub the branch it leaves behind.) -/
theorem claim_C2_amended (ops : List Op) (lex : CLexicon)
    (hbasic : ∀ o ∈ ops, Op.basic o = true)
    (hrun : runOps clex_create ops = some lex) :
    rootChildrenI1 lex = true := by
  have hinv := runOps_inv_cond
    (fun l => lexWF l = true ∧ rootChildrenI1 l = true)
    (fun o => Op.basic o = true)
    applyOp_I1_basic
    ops clex_create lex hbasic ⟨by decide, by decide⟩ hrun
  exact hinv.2

/-- Claim C2 witness: the amended invariant evaluated after the single
operation add("a") from a fresh set. -/
theorem claim_C2_witness :
    rootChildrenI1 (CLexicon.mk (some (LexNode.mk false
      ((List.replicate 26 none).set 0 (some (LexNode.mk true
        (List.replicate 26 none)))))) 1) = true :=
  claim_C2_amended [Op.add [97]] _ (by decide) rfl

theorem applyOp_rootword (lex : CLexicon) (o : Op) (lex' : CLexicon)
    (hq : ∀ w, o = Op.add w → w ≠ [])
    (hP : lexWF lex = true ∧ (∀ r, lex.root = some r → r.is_word = false))
    (h : applyOp lex o = some lex') :
    lexWF lex' = true ∧ (∀ r', lex'.root = some r' → r'.is_word = false) := by
  refine ⟨applyOp_WF lex o lex' hP.1 h, ?_⟩
  cases o with
  | add w =>
      simp only [applyOp] at h
      obtain ⟨r, r', hroot, hx, hlex', hl⟩ := clex_add_inv lex w lex' h
      intro r2 hr2
      rw [hlex'] at hr2
      simp only [Option.some_inj] at hr2
      rw [← hr2]
      have hwne : w ≠ [] := hq w rfl
      obtain ⟨c, cs, hmap⟩ : ∃ c cs, w.map toLowerC = c :: cs := by
        cases w with
        | nil => exact absurd rfl hwne
        | cons a as => exact ⟨toLowerC a, as.map toLowerC, by simp⟩
      rw [hmap] at hx hl
      have hc : isLowerAlpha c = true := by
        simp only [lowerWord, List.all_cons, Bool.and_eq_true] at hl
        exact hl.1
      rw [add_at_is_word r c cs r' hc hx]
      exact hP.2 r hroot
  | remove w =>
      simp only [applyOp] at h
      cases hrm : clex_remove lex w with
      | none => rw [hrm] at h; simp at h
      | some res =>
          rw [hrm] at h
          obtain ⟨b, lexr⟩ := res
          simp only [Option.map_some', Option.some_inj] at h
          obtain ⟨hne, hbf, hbt⟩ := clex_remove_inv lex w b lexr hrm
          cases b with
          | false => rw [← h, hbf rfl]; exact hP.2
          | true =>
              have hspec := clex_remove_spec lex w (hbt rfl) hne hP.1
              obtain ⟨wn, hwalk, _, _, _, hword, _⟩ := hspec.2.2 lexr hrm
              intro r' hr'
              cases hroot : lex.root with
              | none => rw [hroot, walkTot_none] at hwalk; simp at hwalk
              | some r =>
                  rw [← h] at hr'
                  rw [hword r r' hroot hr']
                  exact hP.2 r hroot
  | rmPre p =>
      simp only [applyOp] at h
      cases hrm : clex_remove_prefix_fn lex p with
      | none => rw [hrm] at h; simp at h
      | some res =>
          rw [hrm] at h
          obtain ⟨b, lexr⟩ := res
          simp only [Option.map_some', Option.some_inj] at h
          obtain ⟨hbf, hbt⟩ := clex_remove_prefix_inv lex p b lexr hrm
          cases b with
          | false => rw [← h, hbf rfl]; exact hP.2
          | true =>
              obtain ⟨b2, lexr2, heq2, _, _, _, _, _, _, hword⟩ :=
                clex_remove_prefix_spec lex p (hbt rfl) hP.1
              rw [heq2] at hrm
              simp only [Option.some_inj, Prod.mk.injEq] at hrm
              intro r' hr'
              cases hroot : lex.root with
              | none =>
                  rw [← h, ← hrm.2] at hr'
                  obtain ⟨b3, s3, d3, heq3, hb3, hf3, _⟩ :=
                    remove_prefix_at_spec (p.map toLowerC) lex.root (hbt rfl)
                      (by rw [← lexWF_eq_slotWF]; exact hP.1)
                  rw [hroot, walkTot_none] at hb3
                  simp only [Option.isSome_none] at hb3
                  simp only [clex_remove_prefix_fn] at heq2
                  rw [heq3] at heq2
                  simp only [Option.some_inj, Prod.mk.injEq] at heq2
                  rw [← heq2.1, hb3] at hrm
                  simp at hrm
              | some r =>
                  rw [← h, ← hrm.2] at hr'
                  rw [hword r r' hroot hr']
                  exact hP.2 r hroot

/-- Claim C6 counterexample: the claim says the root node is present after any
sequence of public operations.  After add("a"); remove("a") the removal prunes
the childless word node and then scrub_empty_branches deletes the now wordless
root itself, leaving the root slot absent (and the operation still returns
true). -/
theorem claim_C6_counterexample :
    ((clex_add clex_create [97]).bind fun l1 =>
      (clex_remove l1 [97]).map fun pr => (pr.1, pr.2.root.isSome)) =
    some (true, false) := rfl

/-- Claim C6 amended: after any fault-free sequence of clex_add, clex_remove and
clex_remove_prefix operations from a fresh set in which no empty string is ever
added, whenever the root is present its is_word flag is false (the empty string
is never a stored member under that restriction).  The presence half of the
original claim is dropped: the root slot becomes absent when a removal empties
the tree (see the counterexample) or after clex_remove_prefix("").  (Adding the
empty string itself would set the root's is_word flag, which is why nonempty
add arguments must be required.) -/
theorem claim_C6_amended (ops : List Op) (lex : CLexicon)
    (haddne : ∀ o ∈ ops, ∀ w, o = Op.add w → w ≠ [])
    (hrun : runOps clex_create ops = some lex) :
    ∀ r, lex.root = some r → r.is_word = false := by
  have hinit : lexWF clex_create = true ∧
      (∀ r, clex_create.root = some r → r.is_word = false) := by
    refine ⟨by decide, ?_⟩
    intro r hr
    simp only [clex_create, Option.some_inj] at hr
    rw [← hr]
    rfl
  have hinv := runOps_inv_cond
    (fun l => lexWF l = true ∧ (∀ r, l.root = some r → r.is_word = false))
    (fun o => ∀ w, o = Op.add w → w ≠ [])
    applyOp_rootword
    ops clex_create lex haddne hinit hrun
  exact hinv.2

/-- Claim C6 witness: the amended statement applied after the single operation
add("ab"): the root is present and its is_word flag is false. -/
theorem claim_C6_witness :
    (LexNode.mk false ((List.replicate 26 none).set 0 (some (LexNode.mk false
      ((List.replicate 26 none).set 1 (some (LexNode.mk true
        (List.replicate 26 none)))))))).is_word = false :=
  claim_C6_amended [Op.add [97, 98]] _ (by
    intro o ho w hw
    rw [List.mem_singleton] at ho
    rw [ho] at hw
    injection hw with hww
    rw [← hww]
    decide) rfl _ rfl

theorem disciplined_sync (ops : List Op) : ∀ (lex : CLexicon), lexWF lex = true →
    lex.wordcount = (countWordsSlot lex.root : Int) →
    disciplinedB lex ops = true →
    ∃ lex', runOps lex ops = some lex' ∧ lexWF lex' = true ∧
      lex'.wordcount = (countWordsSlot lex'.root : Int) := by
  induction ops with
  | nil =>
      intro lex hWF hsync _
      exact ⟨lex, rfl, hWF, hsync⟩
  | cons o os ih =>
      intro lex hWF hsync hdisc
      cases o with
      | add w =>
          simp only [disciplinedB] at hdisc
          rw [Bool.and_eq_true] at hdisc
          obtain ⟨h1, h2⟩ := hdisc
          have hfalse : clex_contains lex w = some false := by
            rwa [beq_iff_eq] at h1
          cases hadd : clex_add lex w with
          | none => rw [hadd] at h2; simp at h2
          | some l1 =>
              rw [hadd] at h2
              obtain ⟨r, r', hroot, hx, hl1, hl⟩ := clex_add_inv lex w l1 hadd
              have hr : nodeWF r = true := by
                rw [lexWF_eq_slotWF, hroot] at hWF
                simpa [slotWF] using hWF
              have halpha := lowerWord_alpha_orig w hl
              have hm : membW (some r) (w.map toLowerC) = false := by
                rw [clex_contains_alpha lex w halpha, hroot] at hfalse
                simpa using hfalse
              have hcw := countWords_add_at r _ r' hr hl hx
              rw [hm] at hcw
              simp only [Bool.false_eq_true, if_false] at hcw
              have hWF1 : lexWF l1 = true := by
                rw [hl1, lexWF_eq_slotWF]
                simpa [slotWF] using add_at_WF r _ r' hr hl hx
              have hsync1 : l1.wordcount = (countWordsSlot l1.root : Int) := by
                rw [hl1]
                simp only [countWordsSlot]
                rw [hcw]
                rw [hroot] at hsync
                simp only [countWordsSlot] at hsync
                push_cast
                omega
              obtain ⟨lex', hrun', hWF', hsync'⟩ := ih l1 hWF1 hsync1 h2
              refine ⟨lex', ?_, hWF', hsync'⟩
              simp only [runOps, applyOp]
              rw [hadd]
              exact hrun'
      | remove w =>
          simp only [disciplinedB] at hdisc
          rw [Bool.and_eq_true] at hdisc
          obtain ⟨h1, h2⟩ := hdisc
          have htrue : clex_contains lex w = some true := by
            rwa [beq_iff_eq] at h1
          cases hrm : clex_remove lex w with
          | none => rw [hrm] at h2; simp at h2
          | some pr =>
              rw [hrm] at h2
              obtain ⟨b, lexr⟩ := pr
              obtain ⟨hne, hbf, hbt⟩ := clex_remove_inv lex w b lexr hrm
              have hl := clex_contains_true_lower lex w htrue
              have halpha := lowerWord_alpha_orig w hl
              have hm : membW lex.root (w.map toLowerC) = true := by
                rw [clex_contains_alpha lex w halpha] at htrue
                simpa using htrue
              rw [membW_eq_walkTot] at hm
              cases hw2 : walkTot lex.root (w.map toLowerC) with
              | none => rw [hw2] at hm; simp at hm
              | some wn =>
                  rw [hw2] at hm
                  simp only [Option.elim_some] at hm
                  have hspec := clex_remove_spec lex w hl hne hWF
                  cases b with
                  | false =>
                      obtain ⟨_, hwnone⟩ := hspec.2.1 lexr hrm
                      rw [hw2] at hwnone
                      simp at hwnone
                  | true =>
                      obtain ⟨wn2, hwalk2, hwc, hWF', hcount, _⟩ :=
                        hspec.2.2 lexr hrm
                      rw [hw2] at hwalk2
                      simp only [Option.some_inj] at hwalk2
                      rw [← hwalk2] at hcount
                      rw [hm] at hcount
                      simp only [if_true] at hcount
                      have hsync1 : lexr.wordcount = (countWordsSlot lexr.root : Int) := by
                        rw [hwc, hsync]
                        push_cast
                        omega
                      obtain ⟨lex', hrun', hWF2, hsync'⟩ := ih lexr hWF' hsync1 h2
                      refine ⟨lex', ?_, hWF2, hsync'⟩
                      simp only [runOps, applyOp]
                      rw [hrm]
                      exact hrun'
      | rmPre p =>
          simp only [disciplinedB] at hdisc
          cases hrm : clex_remove_prefix_fn lex p with
          | none => rw [hrm] at hdisc; simp at hdisc
          | some q =>
              rw [hrm] at hdisc
              obtain ⟨b, lexr⟩ := q
              obtain ⟨hbf, hbt⟩ := clex_remove_prefix_inv lex p b lexr hrm
              cases b with
              | false =>
                  have hlexr : lexr = lex := hbf rfl
                  obtain ⟨lex', hrun', hWF', hsync'⟩ := ih lexr
                    (by rw [hlexr]; exact hWF) (by rw [hlexr]; exact hsync) hdisc
                  refine ⟨lex', ?_, hWF', hsync'⟩
                  simp only [runOps, applyOp]
                  rw [hrm]
                  exact hrun'
              | true =>
                  obtain ⟨b2, lexr2, heq2, _, _, hWF2, hcount2, hwc2, _⟩ :=
                    clex_remove_prefix_spec lex p (hbt rfl) hWF
                  rw [heq2] at hrm
                  simp only [Option.some_inj, Prod.mk.injEq] at hrm
                  have hlexr : lexr2 = lexr := hrm.2
                  have hsync1 : lexr.wordcount = (countWordsSlot lexr.root : Int) := by
                    rw [← hlexr, hwc2, hsync]
                    have := hcount2
                    push_cast
                    omega
                  obtain ⟨lex', hrun', hWF', hsync'⟩ := ih lexr
                    (by rw [← hlexr]; exact hWF2) hsync1 hdisc
                  refine ⟨lex', ?_, hWF', hsync'⟩
                  simp only [runOps, applyOp]
                  rw [heq2, hrm.2]
                  exact hrun'

/-- Claim C3 counterexample: the claim says the stored wordcount always equals
the number of reachable terminal nodes.  Adding "a" twice gives wordcount 2
while the tree holds a single terminal node, because clex_simple_add increments
the counter unconditionally. -/
theorem claim_C3_counterexample :
    ((clex_add clex_create [97]).bind fun l1 =>
      (clex_add l1 [97]).map fun l2 =>
        (l2.wordcount, countWordsSlot l2.root)) = some (2, 1) := rfl

/-- Claim C3 amended: provided every clex_add argument is not currently a member
and every clex_remove argument is currently a member at the time of the call
(and no operation faults), the stored wordcount is non-negative and equals the
number of reachable terminal nodes at every point of the sequence, so size()
reports the number of distinct members.  Without that discipline the
counterexample shows the counter drifts (and it can even go negative, e.g. by
removing a non-member whose final node exists twice). -/
theorem claim_C3_amended (ops : List Op)
    (hdisc : disciplinedB clex_create ops = true) :
    ∃ lex, runOps clex_create ops = some lex ∧
      lex.wordcount = (countWordsSlot lex.root : Int) ∧ 0 ≤ lex.wordcount := by
  obtain ⟨lex, hrun, hWF, hsync⟩ :=
    disciplined_sync ops clex_create (by decide) (by decide) hdisc
  refine ⟨lex, hrun, hsync, ?_⟩
  rw [hsync]
  exact Int.natCast_nonneg _

/-- Claim C3 witness: the amended statement applied to the disciplined sequence
add("a"); add("ab"); remove("a"). -/
theorem claim_C3_witness :
    ∃ lex, runOps clex_create [Op.add [97], Op.add [97, 98], Op.remove [97]] =
        some lex ∧
      lex.wordcount = (countWordsSlot lex.root : Int) ∧ 0 ≤ lex.wordcount :=
  claim_C3_amended [Op.add [97], Op.add [97, 98], Op.remove [97]] (by decide)

/-- Claim C8 (confirmed): for every well-formed lexicon and non-empty lower-case
prefix p, clex_remove_prefix succeeds, returns true exactly when the trie
contains the full path for p (equivalently, when clex_contains_prefix holds),
and when it returns true: every lower-case word beginning with p is no longer
contained (p itself included), containment of every word not beginning with p
is unchanged, and size() drops by exactly the number of members that began with
p — where membersOf enumerates precisely the contained lower-case words,
without duplicates. -/
theorem claim_C8_removePrefix (lex : CLexicon) (p : List Nat)
    (hWF : lexWF lex = true) (hp : lowerWord p = true) (hne : p ≠ []) :
    ∃ b lexr, clex_remove_prefix_fn lex p = some (b, lexr) ∧
      ((b = true) ↔ clex_contains_prefix_fn lex p = some true) ∧
      (∀ w, w ∈ membersOf lex ↔
        (lowerWord w = true ∧ clex_contains lex w = some true)) ∧
      (membersOf lex).Nodup ∧
      (b = true →
        (∀ w, lowerWord w = true → p <+: w → clex_contains lexr w = some false) ∧
        (∀ w, lowerWord w = true → ¬ (p <+: w) →
          clex_contains lexr w = clex_contains lex w) ∧
        clex_wordcount lexr = clex_wordcount lex -
          (((membersOf lex).countP (fun w => decide (p <+: w))) : Int)) := by
  have hpm : p.map toLowerC = p := map_toLowerC_of_lower p hp
  obtain ⟨b, lexr, heq, hb, hbf, hWF', hcount, hwc, hmemb, _⟩ :=
    clex_remove_prefix_spec lex p (by rw [hpm]; exact hp) hWF
  rw [hpm] at hb hwc hmemb
  refine ⟨b, lexr, heq, ?_, fun w => membersOf_charac lex hWF w, ?_, ?_⟩
  · rw [clex_contains_prefix_alpha lex p (alphaWord_of_lower p hp), hpm, hb]
    simp
  · cases hroot : lex.root with
    | none => simp [membersOf, hroot]
    | some r => simpa [membersOf, hroot] using wordsIn_nodup r
  · intro hbt
    refine ⟨?_, ?_, ?_⟩
    · intro w hw hpre
      rw [clex_contains_lower lexr w hw, hmemb w hw]
      have hd : decide (p <+: w) = true := by simpa using hpre
      rw [hd]
      simp
    · intro w hw hnpre
      rw [clex_contains_lower lexr w hw, clex_contains_lower lex w hw, hmemb w hw]
      have hd : decide (p <+: w) = false := by simpa using hnpre
      rw [hd]
      simp
    · cases hroot : lex.root with
      | none =>
          rw [hbt, hroot, walkTot_none] at hb
          simp at hb
      | some r =>
          have hr : nodeWF r = true := by
            rw [lexWF_eq_slotWF, hroot] at hWF
            simpa [slotWF] using hWF
          have hcp := countP_wordsIn_node p r hp hr
          simp only [clex_wordcount]
          rw [hwc]
          have : membersOf lex = wordsIn r := by simp [membersOf, hroot]
          rw [this, hcp, hroot]

/-- Claim C8 witness: the statement applied to the one-word lexicon {"a"} and
the prefix "a": the removal returns true and size drops by one. -/
theorem claim_C8_witness :
    ∃ b lexr, clex_remove_prefix_fn (CLexicon.mk (some (LexNode.mk false
        ((List.replicate 26 none).set 0 (some (LexNode.mk true
          (List.replicate 26 none)))))) 1) [97] = some (b, lexr) ∧
      ((b = true) ↔ clex_contains_prefix_fn (CLexicon.mk (some (LexNode.mk false
        ((List.replicate 26 none).set 0 (some (LexNode.mk true
          (List.replicate 26 none)))))) 1) [97] = some true) ∧
      (∀ w, w ∈ membersOf (CLexicon.mk (some (LexNode.mk false
        ((List.replicate 26 none).set 0 (some (LexNode.mk true
          (List.replicate 26 none)))))) 1) ↔
        (lowerWord w = true ∧ clex_contains (CLexicon.mk (some (LexNode.mk false
          ((List.replicate 26 none).set 0 (some (LexNode.mk true
            (List.replicate 26 none)))))) 1) w = some true)) ∧
      (membersOf (CLexicon.mk (some (LexNode.mk false
        ((List.replicate 26 none).set 0 (some (LexNode.mk true
          (List.replicate 26 none)))))) 1)).Nodup ∧
      (b = true →
        (∀ w, lowerWord w = true → [97] <+: w →
          clex_contains lexr w = some false) ∧
        (∀ w, lowerWord w = true → ¬ ([97] <+: w) →
          clex_contains lexr w = clex_contains (CLexicon.mk (some (LexNode.mk false
            ((List.replicate 26 none).set 0 (some (LexNode.mk true
              (List.replicate 26 none)))))) 1) w) ∧
        clex_wordcount lexr = clex_wordcount (CLexicon.mk (some (LexNode.mk false
            ((List.replicate 26 none).set 0 (some (LexNode.mk true
              (List.replicate 26 none)))))) 1) -
          (((membersOf (CLexicon.mk (some (LexNode.mk false
            ((List.replicate 26 none).set 0 (some (LexNode.mk true
              (List.replicate 26 none)))))) 1)).countP
                (fun w => decide ([97] <+: w))) : Int)) :=
  claim_C8_removePrefix _ [97] (by decide) (by decide) (by decide)
